import Mathlib

set_option linter.unusedVariables false

namespace Passenger

/-! Shallow embedding of `ApplicationPool::Pool` (src/ext/common/ApplicationPool/Pool.h)
and of `fillInMiddle` (src/ext/common/Utils/StrIntUtils.cpp).

Worker records (`ProcessInfo`) live in an arena indexed by `WorkerId`; the intrusive
list iterators of the source (`iterator`, `ia_iterator`) become the occurrence of the
id in the group's `processes` list and in the `inactiveApps` list.  The spawn manager,
the cached `stat` helper and the file change checker are external collaborators and
enter as oracle parameters.  `cvSignals` is a ghost counter incremented at every
`activeOrMaxChanged.notify_all()` call of the source. -/

abbrev WorkerId := Nat

structure ProcessInfo where
  appRoot : String
  startTime : Int
  lastUsed : Int
  sessions : Nat
  processed : Nat
  deriving DecidableEq

instance : Inhabited ProcessInfo := ⟨⟨"", 0, 0, 0, 0⟩⟩

structure Group where
  processes : List WorkerId
  size : Nat
  maxRequests : Nat
  deriving DecidableEq

/-- The fields of `SharedData` together with the pool-level fields
(`maxIdleTime`, `waitingOnGlobalQueue`) that the claims mention. -/
structure PoolState where
  groups : List (String × Group)
  max : Nat
  count : Nat
  active : Nat
  maxPerApp : Nat
  inactiveApps : List WorkerId
  maxIdleTime : Nat
  waitingOnGlobalQueue : Nat
  cvSignals : Nat
  procs : WorkerId → ProcessInfo

/-- The acquisition options consumed by `Pool::get` / `spawnOrUseExisting`. -/
structure PoolOptions where
  appRoot : String
  restartDir : String
  statThrottleRate : Nat
  useGlobalQueue : Bool
  maxRequests : Nat
  deriving DecidableEq

/-- `groups.find(a)` on the association list. -/
def findGroup : List (String × Group) → String → Option Group
  | [], _ => none
  | e :: gs, a => if e.1 = a then some e.2 else findGroup gs a

/-- Replace the binding of key `a` (in place). -/
def updateGroup : List (String × Group) → String → Group → List (String × Group)
  | [], _, _ => []
  | e :: gs, a, g' => if e.1 = a then (a, g') :: gs else e :: updateGroup gs a g'

/-- `groups.erase(a)`. -/
def eraseGroup : List (String × Group) → String → List (String × Group)
  | [], _ => []
  | e :: gs, a => if e.1 = a then gs else e :: eraseGroup gs a

/-- All worker ids in the pool, in group order. -/
def idsOf (gs : List (String × Group)) : List WorkerId :=
  gs.flatMap fun e => e.2.processes

/-- Update the arena at one id. -/
def setProc (f : WorkerId → ProcessInfo) (id : WorkerId) (p : ProcessInfo) :
    WorkerId → ProcessInfo :=
  fun j => if j = id then p else f j

/-- Number of busy workers (`sessions > 0`) in a list of ids. -/
def busyCount (procs : WorkerId → ProcessInfo) (l : List WorkerId) : Nat :=
  l.countP fun id => (procs id).sessions != 0

/-- Remove from every group the workers satisfying `p` (recomputing `size`), and drop
the groups that become empty.  Canonical form of the bulk removals of the source. -/
def dropWorkers (p : WorkerId → Bool) (gs : List (String × Group)) :
    List (String × Group) :=
  (gs.map fun e =>
    (e.1, { processes := e.2.processes.filter (fun id => !p id),
            size := (e.2.processes.filter (fun id => !p id)).length,
            maxRequests := e.2.maxRequests })).filter
    fun e => !e.2.processes.isEmpty

/-! ### Restart detection (`Pool::needsRestart`) -/

/-- The restart directory computation at the top of `needsRestart`. -/
def restartDirOf (appRoot restartDir : String) : String :=
  if restartDir = "" then appRoot ++ "/tmp"
  else if restartDir.data.head? = some '/' then restartDir
  else appRoot ++ "/" ++ restartDir

/-- `Pool::needsRestart`.  `statSucceeds` is the throttled `cstat.stat(file) == 0`
oracle, `changed` the `fileChangeChecker.changed(file)` oracle. -/
def needsRestartCheck (statSucceeds changed : String → Bool) (appRoot : String)
    (opts : PoolOptions) : Bool :=
  let dir := restartDirOf appRoot opts.restartDir
  statSucceeds (dir ++ "/always_restart.txt") || changed (dir ++ "/restart.txt")

/-! ### The acquisition algorithm (`Pool::spawnOrUseExisting`) -/

/-- One iteration of the restart-purge loop body: if idle, remove from `inactiveApps`;
else decrement `active`; in both cases decrement `count`.  (The removal from the
group list itself is subsumed by erasing the whole group afterwards.) -/
def purgeFoldStep (procs : WorkerId → ProcessInfo) (st : List WorkerId × Nat × Nat)
    (id : WorkerId) : List WorkerId × Nat × Nat :=
  if (procs id).sessions = 0 then (st.1.erase id, st.2.1, st.2.2 - 1)
  else (st.1, st.2.1 - 1, st.2.2 - 1)

/-- The restart purge: if a group for `appRoot` exists, retire every one of its
workers and erase the group entry, then signal `activeOrMaxChanged`. -/
def purgeGroup (s : PoolState) (appRoot : String) : PoolState :=
  match findGroup s.groups appRoot with
  | none => s
  | some g =>
    let st := g.processes.foldl (purgeFoldStep s.procs) (s.inactiveApps, s.active, s.count)
    { s with groups := eraseGroup s.groups appRoot,
             inactiveApps := st.1, active := st.2.1, count := st.2.2,
             cvSignals := s.cvSignals + 1 }

/-- LRU eviction when `count == max` and no group matches: pop the front of
`inactiveApps`, remove it from its group (erasing the group when it becomes empty,
otherwise decrementing its size) and decrement `count`. -/
def evictLRU (s : PoolState) : PoolState :=
  match s.inactiveApps with
  | [] => s
  | w :: rest =>
    match findGroup s.groups (s.procs w).appRoot with
    | none => s
    | some g =>
      let ps := g.processes.erase w
      let groups' := if ps = [] then eraseGroup s.groups (s.procs w).appRoot
                     else updateGroup s.groups (s.procs w).appRoot
                            { g with processes := ps, size := g.size - 1 }
      { s with groups := groups', inactiveApps := rest, count := s.count - 1 }

/-- The common tail of every selection: `lastUsed = time(NULL); sessions++`. -/
def commonTail (s : PoolState) (id : WorkerId) (now : Int) : PoolState :=
  let p := s.procs id
  { s with procs := setProc s.procs id { p with lastUsed := now, sessions := p.sessions + 1 } }

/-- Branch 1: the front worker of the group is idle; move it to the back, remove it
from `inactiveApps`, increment `active`, signal. -/
def selectFront (s : PoolState) (a : String) (g : Group) (w : WorkerId)
    (rest : List WorkerId) : PoolState :=
  { s with groups := updateGroup s.groups a { g with processes := rest ++ [w] },
           inactiveApps := s.inactiveApps.erase w,
           active := s.active + 1,
           cvSignals := s.cvSignals + 1 }

/-- The least-busy scan: `smallest = begin; for each later it: if it->sessions <
smallest->sessions then smallest = it` (strict `<`: first occurrence wins). -/
def leastBusyOf (procs : WorkerId → ProcessInfo) (w : WorkerId) (rest : List WorkerId) :
    WorkerId :=
  rest.foldl (fun sm id => if (procs id).sessions < (procs sm).sessions then id else sm) w

/-- Branch 2 (no global queue): move the least-busy worker to the back of the list. -/
def selectLeastBusy (s : PoolState) (a : String) (g : Group) (w : WorkerId) : PoolState :=
  { s with groups := updateGroup s.groups a { g with processes := g.processes.erase w ++ [w] } }

/-- A freshly constructed `ProcessInfo` (constructor plus `sessions = 0` assignment);
its `appRoot` comes from the spawned handle. -/
def newWorker (appRoot : String) (now : Int) : ProcessInfo :=
  { appRoot := appRoot, startTime := now, lastUsed := 0, sessions := 0, processed := 0 }

/-- Branch 3: spawn a new worker into the existing group. -/
def spawnInGroup (s : PoolState) (a : String) (g : Group) (nid : WorkerId) (now : Int) :
    PoolState :=
  { s with procs := setProc s.procs nid (newWorker a now),
           groups := updateGroup s.groups a
              { g with processes := g.processes ++ [nid], size := g.size + 1 },
           count := s.count + 1, active := s.active + 1, cvSignals := s.cvSignals + 1 }

/-- Branch 4 tail: spawn a new worker and create a new group for it
(`maxRequests` fixed from the options). -/
def spawnNewGroup (s : PoolState) (opts : PoolOptions) (nid : WorkerId) (now : Int) :
    PoolState :=
  { s with procs := setProc s.procs nid (newWorker opts.appRoot now),
           groups := s.groups ++
              [(opts.appRoot, { processes := [nid], size := 1, maxRequests := opts.maxRequests })],
           count := s.count + 1, active := s.active + 1, cvSignals := s.cvSignals + 1 }

/-- Outcome of one pass of `spawnOrUseExisting`: a worker was selected, or the caller
blocks on `activeOrMaxChanged` (the source restarts the decision tree on wakeup), or a
`SpawnException` propagates. -/
inductive AcqResult where
  | selected (id : WorkerId) (s : PoolState)
  | waiting (s : PoolState)
  | spawnError (msg : String) (s : PoolState)

/-- The shared state at the corresponding lock release. -/
def AcqResult.state : AcqResult → PoolState
  | .selected _ s => s
  | .waiting s => s
  | .spawnError _ s => s

/-- The catch-block wrapping of a spawn failure. -/
def wrapSpawnMsg (appRoot msg : String) : String :=
  "Cannot spawn application '" ++ appRoot ++ "': " ++ msg

/-- The decision tree of `spawnOrUseExisting` after the restart pre-step.
`spawnOk` tells whether `spawnManager->spawn` succeeds, `spawnMsg` is the raised
message otherwise, `nid` the fresh arena id of a newly spawned worker. -/
def acqCore (s : PoolState) (opts : PoolOptions) (spawnOk : Bool) (spawnMsg : String)
    (nid : WorkerId) (now : Int) : AcqResult :=
  match findGroup s.groups opts.appRoot with
  | some g =>
    match g.processes with
    | [] => .waiting s
    | w :: rest =>
      if (s.procs w).sessions = 0 then
        .selected w (commonTail (selectFront s opts.appRoot g w rest) w now)
      else if s.max ≤ s.count ∨ (s.maxPerApp ≠ 0 ∧ s.maxPerApp ≤ g.size) then
        if opts.useGlobalQueue then
          .waiting { s with waitingOnGlobalQueue := s.waitingOnGlobalQueue + 1 }
        else
          let sm := leastBusyOf s.procs w rest
          .selected sm (commonTail (selectLeastBusy s opts.appRoot g sm) sm now)
      else
        if spawnOk then
          .selected nid (commonTail (spawnInGroup s opts.appRoot g nid now) nid now)
        else
          .spawnError (wrapSpawnMsg opts.appRoot spawnMsg) s
  | none =>
    if s.max ≤ s.active then .waiting s
    else
      let s1 := if s.count = s.max then evictLRU s else s
      if spawnOk then
        .selected nid (commonTail (spawnNewGroup s1 opts nid now) nid now)
      else
        .spawnError (wrapSpawnMsg opts.appRoot spawnMsg) s1

/-- `Pool::spawnOrUseExisting`: the restart pre-step (with its `reload(appRoot)`
call, returned as the second component) followed by the decision tree.  `needsR` is
the restart detector's verdict. -/
def spawnOrUseExisting (s : PoolState) (opts : PoolOptions) (needsR spawnOk : Bool)
    (spawnMsg : String) (nid : WorkerId) (now : Int) : AcqResult × List String :=
  if needsR then
    (acqCore (purgeGroup s opts.appRoot) opts spawnOk spawnMsg nid now, [opts.appRoot])
  else
    (acqCore s opts spawnOk spawnMsg nid now, [])

/-! ### Session close callback (`SessionCloseCallback::operator()`) -/

/-- A session on worker `id` closes.  The weak-pointer upgrade of the source succeeds
exactly when the pool still holds the record, i.e. when `id` is in the group found
under its `appRoot`; otherwise the callback is a no-op. -/
def sessionClose (s : PoolState) (id : WorkerId) (now : Int) : PoolState :=
  match findGroup s.groups (s.procs id).appRoot with
  | none => s
  | some g =>
    if id ∈ g.processes then
      let p := s.procs id
      let p1 := { p with processed := p.processed + 1 }
      if 0 < g.maxRequests ∧ g.maxRequests ≤ p1.processed then
        let ps := g.processes.erase id
        let groups' := if ps = [] then eraseGroup s.groups (s.procs id).appRoot
                       else updateGroup s.groups (s.procs id).appRoot
                              { g with processes := ps, size := g.size - 1 }
        { s with groups := groups', count := s.count - 1, active := s.active - 1,
                 cvSignals := s.cvSignals + 1, procs := setProc s.procs id p1 }
      else
        let p2 := { p1 with lastUsed := now, sessions := p.sessions - 1 }
        if p2.sessions = 0 then
          { s with groups := updateGroup s.groups (s.procs id).appRoot
                      { g with processes := id :: g.processes.erase id },
                   inactiveApps := s.inactiveApps ++ [id],
                   active := s.active - 1, cvSignals := s.cvSignals + 1,
                   procs := setProc s.procs id p2 }
        else
          { s with procs := setProc s.procs id p2 }
    else s

/-! ### The reaper (`Pool::cleanerThreadMainLoop`, timeout branch) -/

/-- `maxIdleTime > 0 && now - lastUsed > maxIdleTime`. -/
def reapElig (s : PoolState) (now : Int) (id : WorkerId) : Bool :=
  decide (0 < s.maxIdleTime) && decide ((s.maxIdleTime : Int) < now - (s.procs id).lastUsed)

/-- Body of the reaper scan for one element of the inactive list. -/
def reapOne (now : Int) (s : PoolState) (id : WorkerId) : PoolState :=
  match findGroup s.groups (s.procs id).appRoot with
  | none => s
  | some g =>
    if reapElig s now id then
      let ps := g.processes.erase id
      let groups' := if ps = [] then eraseGroup s.groups (s.procs id).appRoot
                     else updateGroup s.groups (s.procs id).appRoot
                            { g with processes := ps, size := g.size - 1 }
      { s with groups := groups', inactiveApps := s.inactiveApps.erase id,
               count := s.count - 1 }
    else
      if g.processes = [] then { s with groups := eraseGroup s.groups (s.procs id).appRoot }
      else s

/-- One timeout pass of the reaper: scan `inactiveApps` front to back.  The loop of
the source erases only the element under the cursor, so it visits exactly the
elements of the list as it was when the scan started. -/
def reapPass (now : Int) (s : PoolState) : PoolState :=
  s.inactiveApps.foldl (reapOne now) s

/-! ### The remaining public operations -/

def clearPool (s : PoolState) : PoolState :=
  { s with groups := [], inactiveApps := [], count := 0, active := 0,
           cvSignals := s.cvSignals + 1 }

def setMax (s : PoolState) (m : Nat) : PoolState :=
  { s with max := m, cvSignals := s.cvSignals + 1 }

def setMaxPerApp (s : PoolState) (m : Nat) : PoolState :=
  { s with maxPerApp := m, cvSignals := s.cvSignals + 1 }

def setMaxIdleTime (s : PoolState) (t : Nat) : PoolState :=
  { s with maxIdleTime := t }

/-! ### `Pool::get` -/

def MAX_GET_ATTEMPTS : Nat := 10

/-- The catch block of `get` after `connect` fails. -/
def connectFailCleanup (s : PoolState) (appRoot : String) (id : WorkerId) : PoolState :=
  let p := s.procs id
  let s1 := { s with procs := setProc s.procs id { p with sessions := p.sessions - 1 } }
  match findGroup s1.groups appRoot with
  | none => s1
  | some g =>
    let ps := g.processes.erase id
    let groups' := if ps = [] then eraseGroup s1.groups appRoot
                   else updateGroup s1.groups appRoot
                          { g with processes := ps, size := g.size - 1 }
    { s1 with groups := groups', count := s1.count - 1, active := s1.active - 1,
              cvSignals := s1.cvSignals + 1 }

def connectFailMsg (appRoot cause : String) : String :=
  "Cannot connect to an existing application instance for '" ++ appRoot ++ "': " ++ cause

inductive GetResult where
  | session (id : WorkerId) (s : PoolState)
  | spawnFailed (msg : String) (s : PoolState)
  | ioError (msg : String) (s : PoolState)
  | blocked (s : PoolState)

/-- The `while (true)` loop of `Pool::get`; `attempt0` is the value of `attempt`
before the `attempt++` at the top of the body.  The per-attempt oracles are indexed
by the attempt number.  A `waiting` outcome means the caller blocks inside
`spawnOrUseExisting` (progress then requires another thread).  The fuel only bounds
the recursion; from the entry point it never runs out, because the loop continues
only while `attempt != MAX_GET_ATTEMPTS`. -/
def getAttempts (opts : PoolOptions) (needsR spawnOk connectOk : Nat → Bool)
    (spawnMsg connectMsg : Nat → String) (nid : Nat → WorkerId) (now : Nat → Int) :
    Nat → Nat → PoolState → GetResult
  | 0, _, s => .blocked s
  | fuel + 1, attempt0, s =>
    let attempt := attempt0 + 1
    match spawnOrUseExisting s opts (needsR attempt) (spawnOk attempt) (spawnMsg attempt)
        (nid attempt) (now attempt) with
    | (.waiting s', _) => .blocked s'
    | (.spawnError m s', _) => .spawnFailed m s'
    | (.selected id s', _) =>
      if connectOk attempt then .session id s'
      else
        let s'' := connectFailCleanup s' opts.appRoot id
        if attempt = MAX_GET_ATTEMPTS then
          .ioError (connectFailMsg opts.appRoot (connectMsg attempt)) s''
        else
          getAttempts opts needsR spawnOk connectOk spawnMsg connectMsg nid now fuel attempt s''

/-- `Pool::get(options)`. -/
def getFromPool (opts : PoolOptions) (needsR spawnOk connectOk : Nat → Bool)
    (spawnMsg connectMsg : Nat → String) (nid : Nat → WorkerId) (now : Nat → Int)
    (s : PoolState) : GetResult :=
  getAttempts opts needsR spawnOk connectOk spawnMsg connectMsg nid now MAX_GET_ATTEMPTS 0 s

/-! ### String utilities (`StrIntUtils.cpp`) -/

/-- `fillInMiddle(max, prefix, middle, postfix)`; strings are modelled as `List Char`,
the thrown `ArgumentException` as `Except.error`. -/
def fillInMiddle (mx : Nat) (pre mid post : List Char) : Except String (List Char) :=
  if mx ≤ pre.length + post.length then
    .error "Impossible to build string with the given size constraint."
  else
    let fillSize := mx - (pre.length + post.length)
    if mid.length < fillSize then .ok (pre ++ mid ++ post)
    else .ok (pre ++ mid.take fillSize ++ post)

/-- `needle` occurs inside `hay`. -/
def containsStr (hay needle : String) : Prop := ∃ l r, hay = l ++ needle ++ r

/-! ### The state after construction (`Pool::initialize`) -/

def initialState : PoolState :=
  { groups := [], max := 20, count := 0, active := 0, maxPerApp := 0,
    inactiveApps := [], maxIdleTime := 120, waitingOnGlobalQueue := 0,
    cvSignals := 0, procs := fun _ => default }

/-- The pool state reached by the pre-spawn mutations of one acquisition attempt:
the restart purge when the detector fired, then (in the no-group branch below the
active limit with `count == max`) the LRU eviction.  A failed spawn leaves the pool
in exactly this state. -/
def preSpawnState (s : PoolState) (opts : PoolOptions) (needsR : Bool) : PoolState :=
  let s1 := if needsR then purgeGroup s opts.appRoot else s
  if findGroup s1.groups opts.appRoot = none ∧ ¬s1.max ≤ s1.active ∧ s1.count = s1.max
  then evictLRU s1 else s1

/-! ### Small concrete pools, used to instantiate the theorems below -/

/-- One group `"a"` holding a single idle worker `0`, at capacity (`max = 1`). -/
def stateA : PoolState :=
  { groups := [("a", { processes := [0], size := 1, maxRequests := 0 })],
    max := 1, count := 1, active := 0, maxPerApp := 0, inactiveApps := [0],
    maxIdleTime := 120, waitingOnGlobalQueue := 0, cvSignals := 0,
    procs := fun _ =>
      { appRoot := "a", startTime := 0, lastUsed := 0, sessions := 0, processed := 0 } }

/-- One group `"a"` with two busy workers: `1` (two sessions) and `2` (one session),
saturated (`count = max = 2`). -/
def stateB : PoolState :=
  { groups := [("a", { processes := [1, 2], size := 2, maxRequests := 0 })],
    max := 2, count := 2, active := 2, maxPerApp := 0, inactiveApps := [],
    maxIdleTime := 120, waitingOnGlobalQueue := 0, cvSignals := 0,
    procs := fun id =>
      if id = 1 then
        { appRoot := "a", startTime := 0, lastUsed := 0, sessions := 2, processed := 0 }
      else
        { appRoot := "a", startTime := 0, lastUsed := 0, sessions := 1, processed := 0 } }

/-- One group `"a"` with an idle worker `3` and a busy worker `4`. -/
def stateC : PoolState :=
  { groups := [("a", { processes := [3, 4], size := 2, maxRequests := 0 })],
    max := 5, count := 2, active := 1, maxPerApp := 0, inactiveApps := [3],
    maxIdleTime := 120, waitingOnGlobalQueue := 0, cvSignals := 0,
    procs := fun id =>
      if id = 3 then
        { appRoot := "a", startTime := 0, lastUsed := 0, sessions := 0, processed := 0 }
      else
        { appRoot := "a", startTime := 0, lastUsed := 0, sessions := 1, processed := 0 } }

/-- One group `"a"` with `maxRequests = 1` and a single busy worker `5` that has not
yet finished a request. -/
def stateD : PoolState :=
  { groups := [("a", { processes := [5], size := 1, maxRequests := 1 })],
    max := 5, count := 1, active := 1, maxPerApp := 0, inactiveApps := [],
    maxIdleTime := 120, waitingOnGlobalQueue := 0, cvSignals := 0,
    procs := fun _ =>
      { appRoot := "a", startTime := 0, lastUsed := 0, sessions := 1, processed := 0 } }

/-- One group `"a"` with two idle workers: `6` idle since time `0` (eligible for the
reaper at `now = 1000` with `maxIdleTime = 10`) and `7` used recently. -/
def stateE : PoolState :=
  { groups := [("a", { processes := [6, 7], size := 2, maxRequests := 0 })],
    max := 5, count := 2, active := 0, maxPerApp := 0, inactiveApps := [6, 7],
    maxIdleTime := 10, waitingOnGlobalQueue := 0, cvSignals := 0,
    procs := fun id =>
      if id = 6 then
        { appRoot := "a", startTime := 0, lastUsed := 0, sessions := 0, processed := 0 }
      else
        { appRoot := "a", startTime := 0, lastUsed := 995, sessions := 0, processed := 0 } }

/-- The group of `stateB`. -/
def groupB : Group := { processes := [1, 2], size := 2, maxRequests := 0 }

/-- The group of `stateC`. -/
def groupC : Group := { processes := [3, 4], size := 2, maxRequests := 0 }

/-- Acquisition options for `appRoot = "a"` without global queueing. -/
def optsA : PoolOptions :=
  { appRoot := "a", restartDir := "", statThrottleRate := 0, useGlobalQueue := false,
    maxRequests := 0 }

/-- Acquisition options for `appRoot = "b"`. -/
def optsB : PoolOptions :=
  { appRoot := "b", restartDir := "", statThrottleRate := 0, useGlobalQueue := false,
    maxRequests := 0 }

/-- The pool after one successful acquisition for `"a"` on the fresh pool. -/
def exampleAcqState : PoolState :=
  (spawnOrUseExisting initialState optsA false true "" 0 0).1.state

/-! ### The operations as a transition relation -/

/-- One complete public operation ending in a lock release.  `hfresh` records that a
newly spawned worker gets a fresh arena id; `hbusy` that a close callback fires only
for an outstanding session (the `sessions` field counts outstanding sessions). -/
inductive Step : PoolState → PoolState → Prop where
  | acq (s : PoolState) (opts : PoolOptions) (needsR spawnOk : Bool) (msg : String)
      (nid : WorkerId) (now : Int) (hfresh : nid ∉ idsOf s.groups) :
      Step s ((spawnOrUseExisting s opts needsR spawnOk msg nid now).1.state)
  | connectFail (s : PoolState) (opts : PoolOptions) (needsR spawnOk : Bool)
      (msg : String) (nid : WorkerId) (now : Int) (id : WorkerId) (s' : PoolState)
      (rl : List String) (hfresh : nid ∉ idsOf s.groups)
      (hsel : spawnOrUseExisting s opts needsR spawnOk msg nid now = (.selected id s', rl)) :
      Step s (connectFailCleanup s' opts.appRoot id)
  | close (s : PoolState) (id : WorkerId) (now : Int)
      (hbusy : 0 < (s.procs id).sessions) :
      Step s (sessionClose s id now)
  | reap (s : PoolState) (now : Int) : Step s (reapPass now s)
  | clearOp (s : PoolState) : Step s (clearPool s)
  | setMaxOp (s : PoolState) (m : Nat) : Step s (setMax s m)
  | setMaxPerAppOp (s : PoolState) (m : Nat) : Step s (setMaxPerApp s m)
  | setMaxIdleTimeOp (s : PoolState) (t : Nat) : Step s (setMaxIdleTime s t)

/-- States reachable from the freshly initialized pool by complete operations. -/
def Reachable (s : PoolState) : Prop := Relation.ReflTransGen Step initialState s

/-! ### Well-formedness: the invariants of the shared state -/

def sumSizes (gs : List (String × Group)) : Nat :=
  (gs.map fun e => e.2.size).sum

/-- The invariants asserted by `Pool::verifyState`, strengthened by the bookkeeping
facts (unique ids, sizes agree with list lengths, `appRoot` indexes the right group,
`active` counts the busy workers) that make them inductive. -/
structure WF (s : PoolState) : Prop where
  keysNodup : (s.groups.map Prod.fst).Nodup
  idsNodup : (idsOf s.groups).Nodup
  groupsNonempty : ∀ e ∈ s.groups, e.2.processes ≠ []
  sizesEq : ∀ e ∈ s.groups, e.2.size = e.2.processes.length
  rootsEq : ∀ e ∈ s.groups, ∀ id ∈ e.2.processes, (s.procs id).appRoot = e.1
  ordered : ∀ e ∈ s.groups, e.2.processes.Pairwise
      (fun x y => (s.procs x).sessions ≠ 0 → (s.procs y).sessions ≠ 0)
  countEq : s.count = sumSizes s.groups
  activeEq : s.active = busyCount s.procs (idsOf s.groups)
  inactNodup : s.inactiveApps.Nodup
  inactSub : ∀ id ∈ s.inactiveApps, id ∈ idsOf s.groups ∧ (s.procs id).sessions = 0
  idleInact : ∀ e ∈ s.groups, ∀ id ∈ e.2.processes,
      (s.procs id).sessions = 0 → id ∈ s.inactiveApps

/-! ### Association-list lemmas -/

theorem idsOf_nil : idsOf [] = [] := rfl

theorem idsOf_cons (e : String × Group) (gs : List (String × Group)) :
    idsOf (e :: gs) = e.2.processes ++ idsOf gs := by
  simp [idsOf]

theorem idsOf_append (gs1 gs2 : List (String × Group)) :
    idsOf (gs1 ++ gs2) = idsOf gs1 ++ idsOf gs2 := by
  simp [idsOf]

theorem mem_idsOf {id : WorkerId} {gs : List (String × Group)} :
    id ∈ idsOf gs ↔ ∃ e ∈ gs, id ∈ e.2.processes := by
  simp [idsOf]

theorem sumSizes_nil : sumSizes [] = 0 := rfl

theorem sumSizes_cons (e : String × Group) (gs : List (String × Group)) :
    sumSizes (e :: gs) = e.2.size + sumSizes gs := by
  simp [sumSizes]

theorem sumSizes_append (gs1 gs2 : List (String × Group)) :
    sumSizes (gs1 ++ gs2) = sumSizes gs1 + sumSizes gs2 := by
  simp [sumSizes]

theorem findGroup_eq_none {gs : List (String × Group)} {a : String} :
    findGroup gs a = none ↔ ∀ e ∈ gs, e.1 ≠ a := by
  induction gs with
  | nil => simp [findGroup]
  | cons e gs ih =>
    by_cases he : e.1 = a <;> simp [findGroup, he, ih]

theorem findGroup_decomp {gs : List (String × Group)} {a : String} {g : Group}
    (h : findGroup gs a = some g) :
    ∃ pre post, gs = pre ++ (a, g) :: post ∧ ∀ e ∈ pre, e.1 ≠ a := by
  induction gs with
  | nil => simp [findGroup] at h
  | cons e gs ih =>
    by_cases he : e.1 = a
    · refine ⟨[], gs, ?_, by simp⟩
      simp only [findGroup, he, if_pos rfl] at h
      cases e with
      | mk k g' =>
        simp only at he
        cases h
        simp [he]
    · simp only [findGroup, he, if_neg he] at h
      obtain ⟨pre, post, rfl, hpre⟩ := ih h
      refine ⟨e :: pre, post, rfl, ?_⟩
      intro e' he'
      rcases List.mem_cons.1 he' with rfl | h'
      · exact he
      · exact hpre _ h'

theorem findGroup_append_of_not_mem {pre : List (String × Group)} {a : String}
    (hpre : ∀ e ∈ pre, e.1 ≠ a) (rest : List (String × Group)) :
    findGroup (pre ++ rest) a = findGroup rest a := by
  induction pre with
  | nil => rfl
  | cons e pre ih =>
    have he : e.1 ≠ a := hpre e (by simp)
    simp only [List.cons_append, findGroup, if_neg he]
    exact ih fun e' h' => hpre e' (by simp [h'])

theorem updateGroup_decomp {pre : List (String × Group)} {a : String}
    (hpre : ∀ e ∈ pre, e.1 ≠ a) (g' : Group) (post : List (String × Group)) (g : Group) :
    updateGroup (pre ++ (a, g) :: post) a g' = pre ++ (a, g') :: post := by
  induction pre with
  | nil => simp [updateGroup]
  | cons e pre ih =>
    have he : e.1 ≠ a := hpre e (by simp)
    have ih' := ih fun e' h' => hpre e' (by simp [h'])
    simp only [List.cons_append, updateGroup, if_neg he]
    exact congrArg (e :: ·) ih'

theorem eraseGroup_decomp {pre : List (String × Group)} {a : String}
    (hpre : ∀ e ∈ pre, e.1 ≠ a) (post : List (String × Group)) (g : Group) :
    eraseGroup (pre ++ (a, g) :: post) a = pre ++ post := by
  induction pre with
  | nil => simp [eraseGroup]
  | cons e pre ih =>
    have he : e.1 ≠ a := hpre e (by simp)
    have ih' := ih fun e' h' => hpre e' (by simp [h'])
    simp only [List.cons_append, eraseGroup, if_neg he]
    exact congrArg (e :: ·) ih'

theorem findGroup_of_mem {gs : List (String × Group)} {a : String} {g : Group}
    (hkeys : (gs.map Prod.fst).Nodup) (hmem : (a, g) ∈ gs) :
    findGroup gs a = some g := by
  induction gs with
  | nil => simp at hmem
  | cons e gs ih =>
    rcases List.mem_cons.1 hmem with rfl | hmem'
    · simp [findGroup]
    · have he : e.1 ≠ a := by
        intro h
        have : a ∈ gs.map Prod.fst := List.mem_map.2 ⟨(a, g), hmem', rfl⟩
        simp only [List.map_cons, List.nodup_cons] at hkeys
        exact hkeys.1 (h ▸ this)
      simp only [findGroup, if_neg he]
      exact ih (by simp only [List.map_cons, List.nodup_cons] at hkeys; exact hkeys.2) hmem'

/-! ### Counting helpers -/

theorem busyCount_append (procs : WorkerId → ProcessInfo) (l1 l2 : List WorkerId) :
    busyCount procs (l1 ++ l2) = busyCount procs l1 + busyCount procs l2 :=
  List.countP_append _ _ _

theorem busyCount_congr {procs1 procs2 : WorkerId → ProcessInfo} {l : List WorkerId}
    (h : ∀ id ∈ l, (procs1 id).sessions = (procs2 id).sessions) :
    busyCount procs1 l = busyCount procs2 l := by
  refine List.countP_congr fun x hx => ?_
  simp [h x hx]

theorem busyCount_perm (procs : WorkerId → ProcessInfo) {l1 l2 : List WorkerId}
    (h : l1.Perm l2) : busyCount procs l1 = busyCount procs l2 :=
  h.countP_eq _

theorem busyCount_cons (procs : WorkerId → ProcessInfo) (w : WorkerId) (l : List WorkerId) :
    busyCount procs (w :: l) =
      busyCount procs l + (if (procs w).sessions ≠ 0 then 1 else 0) := by
  simp only [busyCount, List.countP_cons]
  congr 1
  by_cases h : (procs w).sessions = 0 <;> simp [h]

theorem busyCount_erase (procs : WorkerId → ProcessInfo) {l : List WorkerId}
    {w : WorkerId} (hw : w ∈ l) :
    busyCount procs l =
      busyCount procs (l.erase w) + (if (procs w).sessions ≠ 0 then 1 else 0) := by
  rw [busyCount_perm procs (List.perm_cons_erase hw), busyCount_cons]

theorem countP_split (q p : WorkerId → Bool) (l : List WorkerId) :
    l.countP q = (l.filter p).countP q + (l.filter fun a => !p a).countP q := by
  induction l with
  | nil => simp
  | cons x l ih =>
    simp only [List.filter_cons, List.countP_cons]
    by_cases hp : p x = true <;> by_cases hq : q x = true <;>
      simp [hp, hq, List.countP_cons, ih] <;> omega

theorem busyCount_split (procs : WorkerId → ProcessInfo) (p : WorkerId → Bool)
    (l : List WorkerId) :
    busyCount procs l =
      busyCount procs (l.filter p) + busyCount procs (l.filter fun a => !p a) :=
  countP_split _ p l

theorem filter_beq_of_nodup {l : List WorkerId} (h : l.Nodup) {w : WorkerId}
    (hw : w ∈ l) : l.filter (fun x => x == w) = [w] := by
  induction l with
  | nil => simp at hw
  | cons a l ih =>
    simp only [List.nodup_cons] at h
    rcases List.mem_cons.1 hw with rfl | hw'
    · have hnil : l.filter (fun x => x == w) = [] := by
        refine List.filter_eq_nil_iff.2 fun x hx hbeq => ?_
        have hxw : x = w := by simpa using hbeq
        exact h.1 (hxw ▸ hx)
      simp [List.filter_cons, hnil]
    · have hna : (a == w) = false := by
        have : a ≠ w := fun heq => h.1 (heq ▸ hw')
        simpa using this
      simp [List.filter_cons, hna, ih h.2 hw']

theorem sumSizes_eq_length_idsOf {gs : List (String × Group)}
    (hsz : ∀ e ∈ gs, e.2.size = e.2.processes.length) :
    sumSizes gs = (idsOf gs).length := by
  induction gs with
  | nil => rfl
  | cons e gs ih =>
    rw [sumSizes_cons, idsOf_cons, List.length_append,
      hsz e (by simp), ih fun e' h' => hsz e' (by simp [h'])]

theorem WF_of_eq {s t : PoolState} (h : WF s) (hg : t.groups = s.groups)
    (hc : t.count = s.count) (ha : t.active = s.active)
    (hi : t.inactiveApps = s.inactiveApps) (hp : t.procs = s.procs) : WF t := by
  refine ⟨?_, ?_, ?_, ?_, ?_, ?_, ?_, ?_, ?_, ?_, ?_⟩ <;>
    simp only [hg, hc, ha, hi, hp]
  exacts [h.keysNodup, h.idsNodup, h.groupsNonempty, h.sizesEq, h.rootsEq, h.ordered,
    h.countEq, h.activeEq, h.inactNodup, h.inactSub, h.idleInact]

theorem WF_findGroup_decomp {s : PoolState} (h : WF s) {a : String} {g : Group}
    (hf : findGroup s.groups a = some g) :
    ∃ pre post, s.groups = pre ++ (a, g) :: post ∧ (∀ e ∈ pre, e.1 ≠ a) ∧
      ∀ e ∈ post, e.1 ≠ a := by
  obtain ⟨pre, post, hdec, hpre⟩ := findGroup_decomp hf
  refine ⟨pre, post, hdec, hpre, ?_⟩
  have hk := h.keysNodup
  rw [hdec] at hk
  simp only [List.map_append, List.map_cons] at hk
  intro e he heq
  have hmem : a ∈ post.map Prod.fst := List.mem_map.2 ⟨e, he, heq⟩
  have hcons := (List.nodup_append.1 hk).2.1
  simp only [List.nodup_cons] at hcons
  exact hcons.1 hmem

theorem WF_locate {s : PoolState} (h : WF s) {id : WorkerId}
    (hid : id ∈ idsOf s.groups) :
    ∃ g, findGroup s.groups ((s.procs id).appRoot) = some g ∧ id ∈ g.processes := by
  obtain ⟨e, he, hmem⟩ := mem_idsOf.1 hid
  have hroot := h.rootsEq e he id hmem
  refine ⟨e.2, ?_, hmem⟩
  rw [hroot]
  exact findGroup_of_mem h.keysNodup (by rw [Prod.mk.eta]; exact he)

/-! ### `dropWorkers` calculus -/

theorem dropWorkers_cons (p : WorkerId → Bool) (e : String × Group)
    (gs : List (String × Group)) :
    dropWorkers p (e :: gs) =
      if (e.2.processes.filter fun id => !p id) = [] then dropWorkers p gs
      else (e.1, { processes := e.2.processes.filter fun id => !p id,
                   size := (e.2.processes.filter fun id => !p id).length,
                   maxRequests := e.2.maxRequests }) :: dropWorkers p gs := by
  simp only [dropWorkers, List.map_cons, List.filter_cons]
  by_cases hh : (e.2.processes.filter fun id => !p id) = [] <;>
    simp [hh, List.isEmpty_iff]

theorem dropWorkers_append (p : WorkerId → Bool) (gs1 gs2 : List (String × Group)) :
    dropWorkers p (gs1 ++ gs2) = dropWorkers p gs1 ++ dropWorkers p gs2 := by
  simp [dropWorkers, List.filter_append]

theorem idsOf_dropWorkers (p : WorkerId → Bool) (gs : List (String × Group)) :
    idsOf (dropWorkers p gs) = (idsOf gs).filter fun id => !p id := by
  induction gs with
  | nil => rfl
  | cons e gs ih =>
    by_cases hh : (e.2.processes.filter fun id => !p id) = []
    · rw [dropWorkers_cons, if_pos hh, idsOf_cons, List.filter_append, hh,
        List.nil_append, ih]
    · rw [dropWorkers_cons, if_neg hh, idsOf_cons, idsOf_cons, List.filter_append, ih]

theorem mem_dropWorkers {p : WorkerId → Bool} {gs : List (String × Group)}
    {e' : String × Group} :
    e' ∈ dropWorkers p gs ↔ ∃ e ∈ gs, (e.2.processes.filter fun id => !p id) ≠ [] ∧
      e' = (e.1, { processes := e.2.processes.filter fun id => !p id,
                   size := (e.2.processes.filter fun id => !p id).length,
                   maxRequests := e.2.maxRequests }) := by
  simp only [dropWorkers, List.mem_filter, List.mem_map]
  constructor
  · rintro ⟨⟨e, he, rfl⟩, hne⟩
    exact ⟨e, he, by simpa [List.isEmpty_iff] using hne, rfl⟩
  · rintro ⟨e, he, hne, rfl⟩
    exact ⟨⟨e, he, rfl⟩, by simpa [List.isEmpty_iff] using hne⟩

theorem keys_dropWorkers_sublist (p : WorkerId → Bool) (gs : List (String × Group)) :
    ((dropWorkers p gs).map Prod.fst).Sublist (gs.map Prod.fst) := by
  induction gs with
  | nil => exact List.Sublist.refl _
  | cons e gs ih =>
    by_cases hh : (e.2.processes.filter fun id => !p id) = []
    · rw [dropWorkers_cons, if_pos hh, List.map_cons]
      exact ih.trans (List.sublist_cons_self _ _)
    · rw [dropWorkers_cons, if_neg hh, List.map_cons, List.map_cons]
      exact List.Sublist.cons₂ _ ih

/-- Removing any set of workers (with the inactive list and the counters adjusted
accordingly) preserves well-formedness.  This is the shape of the LRU eviction, the
restart purge, the reaper, the max-requests retirement and the connect-failure
cleanup. -/
theorem WF_dropWorkersGen {s t : PoolState} (h : WF s) (p : WorkerId → Bool)
    (hgt : t.groups = dropWorkers p s.groups)
    (hct : t.count = s.count - (idsOf s.groups).countP p)
    (hat : t.active = s.active - busyCount s.procs ((idsOf s.groups).filter p))
    (hit : t.inactiveApps = s.inactiveApps.filter fun id => !p id)
    (hpt : ∀ x, p x = false → t.procs x = s.procs x) : WF t := by
  refine ⟨?_, ?_, ?_, ?_, ?_, ?_, ?_, ?_, ?_, ?_, ?_⟩
  · rw [hgt]
    exact (keys_dropWorkers_sublist p s.groups).nodup h.keysNodup
  · rw [hgt, idsOf_dropWorkers]
    exact (List.filter_sublist _).nodup h.idsNodup
  · intro e' he'
    rw [hgt] at he'
    obtain ⟨e, he, hne, rfl⟩ := mem_dropWorkers.1 he'
    simpa using hne
  · intro e' he'
    rw [hgt] at he'
    obtain ⟨e, he, hne, rfl⟩ := mem_dropWorkers.1 he'
    rfl
  · intro e' he' id hid
    rw [hgt] at he'
    obtain ⟨e, he, hne, rfl⟩ := mem_dropWorkers.1 he'
    have hmf := List.mem_filter.1 hid
    have hpid : p id = false := by simpa using hmf.2
    rw [hpt id hpid]
    exact h.rootsEq e he id hmf.1
  · intro e' he'
    rw [hgt] at he'
    obtain ⟨e, he, hne, rfl⟩ := mem_dropWorkers.1 he'
    refine List.Pairwise.imp_of_mem ?_ ((h.ordered e he).filter (fun id => !p id))
    intro a b ha hb hr
    have hpa : p a = false := by simpa using (List.mem_filter.1 ha).2
    have hpb : p b = false := by simpa using (List.mem_filter.1 hb).2
    rw [hpt a hpa, hpt b hpb]
    exact hr
  · rw [hct, hgt]
    have hs1 : sumSizes (dropWorkers p s.groups)
        = (idsOf (dropWorkers p s.groups)).length := by
      refine sumSizes_eq_length_idsOf fun e' he' => ?_
      obtain ⟨e, he, hne, rfl⟩ := mem_dropWorkers.1 he'
      rfl
    rw [hs1, idsOf_dropWorkers]
    have hs2 : s.count = (idsOf s.groups).length := by
      rw [h.countEq]; exact sumSizes_eq_length_idsOf h.sizesEq
    rw [hs2]
    have hsplit := countP_split (fun _ => true) p (idsOf s.groups)
    simp only [List.countP_true] at hsplit
    have hc1 := List.countP_eq_length_filter p (idsOf s.groups)
    omega
  · rw [hat, hgt, idsOf_dropWorkers]
    have h1 : busyCount t.procs ((idsOf s.groups).filter fun id => !p id)
        = busyCount s.procs ((idsOf s.groups).filter fun id => !p id) := by
      refine busyCount_congr fun id hid => ?_
      have hpid : p id = false := by simpa using (List.mem_filter.1 hid).2
      rw [hpt id hpid]
    rw [h1, h.activeEq]
    have h2 := busyCount_split s.procs p (idsOf s.groups)
    omega
  · rw [hit]
    exact h.inactNodup.filter _
  · intro id hid
    rw [hit] at hid
    have hm := List.mem_filter.1 hid
    have hpid : p id = false := by simpa using hm.2
    obtain ⟨hI, hidle⟩ := h.inactSub id hm.1
    refine ⟨?_, by rw [hpt id hpid]; exact hidle⟩
    rw [hgt, idsOf_dropWorkers]
    exact List.mem_filter.2 ⟨hI, by simp [hpid]⟩
  · intro e' he' id hid hidle
    rw [hit]
    rw [hgt] at he'
    obtain ⟨e, he, hne, rfl⟩ := mem_dropWorkers.1 he'
    have hm := List.mem_filter.1 hid
    have hpid : p id = false := by simpa using hm.2
    have hidle' : (s.procs id).sessions = 0 := by rw [← hpt id hpid]; exact hidle
    have hin := h.idleInact e he id hm.1 hidle'
    exact List.mem_filter.2 ⟨hin, by simp [hpid]⟩

theorem erase_eq_filter_not_beq {l : List WorkerId} (h : l.Nodup) (w : WorkerId) :
    l.erase w = l.filter fun x => !(x == w) :=
  h.erase_eq_filter w

theorem dropWorkers_id {p : WorkerId → Bool} {gs : List (String × Group)}
    (hno : ∀ e ∈ gs, e.2.processes ≠ [])
    (hsz : ∀ e ∈ gs, e.2.size = e.2.processes.length)
    (hfalse : ∀ e ∈ gs, ∀ id ∈ e.2.processes, p id = false) :
    dropWorkers p gs = gs := by
  induction gs with
  | nil => rfl
  | cons e gs ih =>
    have hfe : e.2.processes.filter (fun id => !p id) = e.2.processes :=
      List.filter_eq_self.2 fun id hid => by
        simp [hfalse e (List.mem_cons_self e gs) id hid]
    have hsze := hsz e (List.mem_cons_self e gs)
    have hnoe := hno e (List.mem_cons_self e gs)
    rw [dropWorkers_cons, hfe, if_neg hnoe,
      ih (fun e' h' => hno e' (List.mem_cons_of_mem _ h'))
        (fun e' h' => hsz e' (List.mem_cons_of_mem _ h'))
        (fun e' h' => hfalse e' (List.mem_cons_of_mem _ h'))]
    congr 1
    rw [← hsze]

theorem dropWorkers_cons_of_filter {p : WorkerId → Bool} {e : String × Group}
    {gs : List (String × Group)} {l' : List WorkerId}
    (hl : e.2.processes.filter (fun id => !p id) = l') :
    dropWorkers p (e :: gs) =
      if l' = [] then dropWorkers p gs
      else (e.1, { processes := l', size := l'.length,
                   maxRequests := e.2.maxRequests }) :: dropWorkers p gs := by
  rw [dropWorkers_cons, hl]

/-- The source's removal of one worker from its group (`erase` from the list,
erase the group when empty, otherwise decrement `size`) is `dropWorkers (· == w)`. -/
theorem remove_eq_dropWorkers {s : PoolState} (h : WF s) {a : String} {g : Group}
    (hf : findGroup s.groups a = some g) {w : WorkerId} (hw : w ∈ g.processes) :
    (if g.processes.erase w = [] then eraseGroup s.groups a
     else updateGroup s.groups a
       { g with processes := g.processes.erase w, size := g.size - 1 })
    = dropWorkers (fun x => x == w) s.groups := by
  obtain ⟨pre, post, hdec, hpre, hpost⟩ := WF_findGroup_decomp h hf
  have hids := h.idsNodup
  rw [hdec, idsOf_append, idsOf_cons] at hids
  have hsplit := List.nodup_append.1 hids
  have hsplit2 := List.nodup_append.1 hsplit.2.1
  have hWnodup : g.processes.Nodup := hsplit2.1
  have hwpre : ∀ id ∈ idsOf pre, id ≠ w := fun id hid heq =>
    hsplit.2.2 hid (List.mem_append_left _ (heq ▸ hw))
  have hwpost : ∀ id ∈ idsOf post, id ≠ w := fun id hid heq =>
    hsplit2.2.2 (heq ▸ hw) hid
  have hdpre : dropWorkers (fun x => x == w) pre = pre :=
    dropWorkers_id
      (fun e he => h.groupsNonempty e (by rw [hdec]; exact List.mem_append_left _ he))
      (fun e he => h.sizesEq e (by rw [hdec]; exact List.mem_append_left _ he))
      (fun e he id hid => by
        have hm : id ∈ idsOf pre := mem_idsOf.2 ⟨e, he, hid⟩
        simpa using hwpre id hm)
  have hdpost : dropWorkers (fun x => x == w) post = post :=
    dropWorkers_id
      (fun e he => h.groupsNonempty e
        (by rw [hdec]; exact List.mem_append_right _ (List.mem_cons_of_mem _ he)))
      (fun e he => h.sizesEq e
        (by rw [hdec]; exact List.mem_append_right _ (List.mem_cons_of_mem _ he)))
      (fun e he id hid => by
        have hm : id ∈ idsOf post := mem_idsOf.2 ⟨e, he, hid⟩
        simpa using hwpost id hm)
  have hfilter : (((a, g) : String × Group)).2.processes.filter (fun id => !(id == w))
      = g.processes.erase w := by
    rw [erase_eq_filter_not_beq hWnodup w]
  have hgmid : dropWorkers (fun x => x == w) ((a, g) :: post) =
      if g.processes.erase w = [] then post
      else (a, { processes := g.processes.erase w, size := (g.processes.erase w).length,
                 maxRequests := g.maxRequests }) :: post := by
    rw [dropWorkers_cons_of_filter hfilter, hdpost]
  rw [hdec, dropWorkers_append, hdpre, hgmid]
  by_cases hE : g.processes.erase w = []
  · rw [if_pos hE, if_pos hE]
    exact eraseGroup_decomp hpre post g
  · rw [if_neg hE, if_neg hE, updateGroup_decomp hpre _ post g]
    have hsg : g.size = g.processes.length :=
      h.sizesEq (a, g)
        (by rw [hdec]; exact List.mem_append_right _ (List.mem_cons_self _ _))
    have hwlen : 0 < g.processes.length := List.length_pos_of_mem hw
    have hlen : g.size - 1 = (g.processes.erase w).length := by
      rw [List.length_erase_of_mem hw]; omega
    rw [hlen]

/-- Specialization of `WF_dropWorkersGen` to the removal of a single worker. -/
theorem WF_removeOne {s t : PoolState} (h : WF s) {w : WorkerId}
    (hw : w ∈ idsOf s.groups)
    (hgt : t.groups = dropWorkers (fun x => x == w) s.groups)
    (hct : t.count = s.count - 1)
    (hat : t.active = if (s.procs w).sessions = 0 then s.active else s.active - 1)
    (hit : t.inactiveApps = if (s.procs w).sessions = 0 then s.inactiveApps.erase w
           else s.inactiveApps)
    (hpt : ∀ x, x ≠ w → t.procs x = s.procs x) : WF t := by
  have hfilterw : (idsOf s.groups).filter (fun x => x == w) = [w] :=
    filter_beq_of_nodup h.idsNodup hw
  have hcount1 : (idsOf s.groups).countP (fun x => x == w) = 1 := by
    rw [List.countP_eq_length_filter, hfilterw]; rfl
  have hbw : busyCount s.procs [w] = if (s.procs w).sessions ≠ 0 then 1 else 0 := by
    rw [busyCount_cons]
    simp [busyCount]
  refine WF_dropWorkersGen h (fun x => x == w) hgt ?_ ?_ ?_ ?_
  · rw [hct, hcount1]
  · rw [hat, hfilterw, hbw]
    by_cases hb : (s.procs w).sessions = 0 <;> simp [hb]
  · rw [hit]
    by_cases hb : (s.procs w).sessions = 0
    · rw [if_pos hb]
      exact erase_eq_filter_not_beq h.inactNodup w
    · rw [if_neg hb]
      symm
      refine List.filter_eq_self.2 fun x hx => ?_
      have hxw : x ≠ w := fun heq => hb (heq ▸ (h.inactSub x hx).2)
      simp [hxw]
  · intro x hpx
    exact hpt x (by simpa using hpx)

theorem setProc_same (f : WorkerId → ProcessInfo) (i : WorkerId) (p : ProcessInfo) :
    setProc f i p i = p := by
  simp [setProc]

theorem setProc_other (f : WorkerId → ProcessInfo) (i : WorkerId) (p : ProcessInfo)
    {j : WorkerId} (h : j ≠ i) : setProc f i p j = f j := by
  simp [setProc, h]

theorem busyCount_status_congr {procs1 procs2 : WorkerId → ProcessInfo}
    {l : List WorkerId}
    (h : ∀ id ∈ l, ((procs1 id).sessions ≠ 0 ↔ (procs2 id).sessions ≠ 0)) :
    busyCount procs1 l = busyCount procs2 l := by
  refine List.countP_congr fun x hx => ?_
  have := h x hx
  constructor <;> intro hb <;> simp only [bne_iff_ne, ne_eq] at hb ⊢ <;> tauto

theorem pairwise_busy_of_all {procs : WorkerId → ProcessInfo} {l : List WorkerId}
    (hall : ∀ y ∈ l, (procs y).sessions ≠ 0) :
    l.Pairwise fun u v => (procs u).sessions ≠ 0 → (procs v).sessions ≠ 0 := by
  induction l with
  | nil => exact List.Pairwise.nil
  | cons a l ih =>
    exact List.Pairwise.cons (fun v hv _ => hall v (List.mem_cons_of_mem _ hv))
      (ih fun y hy => hall y (List.mem_cons_of_mem _ hy))

theorem all_busy_of_front {procs : WorkerId → ProcessInfo} {w : WorkerId}
    {rest : List WorkerId}
    (hord : (w :: rest).Pairwise
      fun u v => (procs u).sessions ≠ 0 → (procs v).sessions ≠ 0)
    (hw : (procs w).sessions ≠ 0) :
    ∀ y ∈ w :: rest, (procs y).sessions ≠ 0 := by
  intro y hy
  rcases List.mem_cons.1 hy with rfl | hy'
  · exact hw
  · exact (List.pairwise_cons.1 hord).1 y hy' hw

/-- Reordering one group's list (a permutation) while changing the record of one of
its members preserves well-formedness, provided the member's `appRoot` is kept, the
new ordering invariant is re-established, and `active`/`inactiveApps` are adjusted
according to how the member's idle status changes.  This is the shape of the
front-idle selection, the least-busy selection, and the close-to-idle transition. -/
theorem WF_permGroup {s t : PoolState} (h : WF s) {a : String} {g : Group}
    (hf : findGroup s.groups a = some g)
    {x : WorkerId} (hx : x ∈ g.processes) {ws' : List WorkerId}
    (hxE : x ∈ ws') (hperm : ws'.Perm g.processes)
    (p' : ProcessInfo) (happ : p'.appRoot = (s.procs x).appRoot)
    (hgt : t.groups = updateGroup s.groups a { g with processes := ws' })
    (hpt : t.procs = setProc s.procs x p')
    (hord : ws'.Pairwise fun u v =>
      (t.procs u).sessions ≠ 0 → (t.procs v).sessions ≠ 0)
    (hcnt : t.count = s.count)
    (hcase :
      ((s.procs x).sessions = 0 ∧ p'.sessions ≠ 0 ∧
        t.inactiveApps = s.inactiveApps.erase x ∧ t.active = s.active + 1) ∨
      ((s.procs x).sessions ≠ 0 ∧ p'.sessions ≠ 0 ∧
        t.inactiveApps = s.inactiveApps ∧ t.active = s.active) ∨
      ((s.procs x).sessions ≠ 0 ∧ p'.sessions = 0 ∧
        t.inactiveApps = s.inactiveApps ++ [x] ∧ t.active = s.active - 1)) :
    WF t := by
  obtain ⟨pre, post, hdec, hpre, hpost⟩ := WF_findGroup_decomp h hf
  have hgmem : (a, g) ∈ s.groups := by
    rw [hdec]; exact List.mem_append_right _ (List.mem_cons_self _ _)
  have hids := h.idsNodup
  rw [hdec, idsOf_append, idsOf_cons] at hids
  have hsplit := List.nodup_append.1 hids
  have hsplit2 := List.nodup_append.1 hsplit.2.1
  have hWnodup : g.processes.Nodup := hsplit2.1
  have hxpre : x ∉ idsOf pre := fun hmem =>
    hsplit.2.2 hmem (List.mem_append_left _ hx)
  have hxpost : x ∉ idsOf post := fun hmem => hsplit2.2.2 hx hmem
  have hptx : t.procs x = p' := by rw [hpt]; exact setProc_same _ _ _
  have hptother : ∀ y, y ≠ x → t.procs y = s.procs y := fun y hy => by
    rw [hpt]; exact setProc_other _ _ _ hy
  have hupdate : t.groups = pre ++ (a, { g with processes := ws' }) :: post := by
    rw [hgt, hdec, updateGroup_decomp hpre _ post g]
  have hidsT : idsOf t.groups = idsOf pre ++ (ws' ++ idsOf post) := by
    rw [hupdate, idsOf_append, idsOf_cons]
  have hpermIds : List.Perm (idsOf t.groups) (idsOf s.groups) := by
    rw [hidsT, hdec, idsOf_append, idsOf_cons]
    exact (hperm.append_right _).append_left _
  have hmempre : ∀ e ∈ pre, e ∈ s.groups := fun e he => by
    rw [hdec]; exact List.mem_append_left _ he
  have hmempost : ∀ e ∈ post, e ∈ s.groups := fun e he => by
    rw [hdec]; exact List.mem_append_right _ (List.mem_cons_of_mem _ he)
  have hprenx : ∀ e ∈ pre, ∀ id ∈ e.2.processes, id ≠ x := fun e he id hid heq =>
    hxpre (heq ▸ mem_idsOf.2 ⟨e, he, hid⟩)
  have hpostnx : ∀ e ∈ post, ∀ id ∈ e.2.processes, id ≠ x := fun e he id hid heq =>
    hxpost (heq ▸ mem_idsOf.2 ⟨e, he, hid⟩)
  have hWlen : ws'.length = g.processes.length := hperm.length_eq
  have hsz := h.sizesEq (a, g) hgmem
  have hxI : x ∈ idsOf s.groups := mem_idsOf.2 ⟨(a, g), hgmem, hx⟩
  refine ⟨?_, ?_, ?_, ?_, ?_, ?_, ?_, ?_, ?_, ?_, ?_⟩
  · have hk := h.keysNodup
    rw [hdec] at hk
    rw [hupdate]
    simpa using hk
  · exact hpermIds.symm.nodup h.idsNodup
  · intro e' he'
    rw [hupdate] at he'
    rcases List.mem_append.1 he' with hp | hmid
    · exact h.groupsNonempty e' (hmempre e' hp)
    · rcases List.mem_cons.1 hmid with rfl | hp'
      · have hWne : g.processes ≠ [] := h.groupsNonempty (a, g) hgmem
        show ws' ≠ []
        intro hnil
        apply hWne
        have hlen := hWlen
        rw [hnil] at hlen
        have hzero : g.processes.length = 0 := by simpa using hlen.symm
        exact List.length_eq_zero.1 hzero
      · exact h.groupsNonempty e' (hmempost e' hp')
  · intro e' he'
    rw [hupdate] at he'
    rcases List.mem_append.1 he' with hp | hmid
    · exact h.sizesEq e' (hmempre e' hp)
    · rcases List.mem_cons.1 hmid with rfl | hp'
      · show g.size = ws'.length
        rw [hWlen]
        exact hsz
      · exact h.sizesEq e' (hmempost e' hp')
  · intro e' he' id hid
    rw [hupdate] at he'
    rcases List.mem_append.1 he' with hp | hmid
    · rw [hptother id (hprenx e' hp id hid)]
      exact h.rootsEq e' (hmempre e' hp) id hid
    · rcases List.mem_cons.1 hmid with rfl | hp'
      · have hidW : id ∈ g.processes := hperm.mem_iff.1 hid
        by_cases hix : id = x
        · subst hix
          rw [hptx, happ]
          exact h.rootsEq (a, g) hgmem id hidW
        · rw [hptother id hix]
          exact h.rootsEq (a, g) hgmem id hidW
      · rw [hptother id (hpostnx e' hp' id hid)]
        exact h.rootsEq e' (hmempost e' hp') id hid
  · intro e' he'
    rw [hupdate] at he'
    rcases List.mem_append.1 he' with hp | hmid
    · refine List.Pairwise.imp_of_mem ?_ (h.ordered e' (hmempre e' hp))
      intro u v hu hv hr
      rw [hptother u (hprenx e' hp u hu), hptother v (hprenx e' hp v hv)]
      exact hr
    · rcases List.mem_cons.1 hmid with rfl | hp'
      · exact hord
      · refine List.Pairwise.imp_of_mem ?_ (h.ordered e' (hmempost e' hp'))
        intro u v hu hv hr
        rw [hptother u (hpostnx e' hp' u hu), hptother v (hpostnx e' hp' v hv)]
        exact hr
  · rw [hcnt, h.countEq, hdec, hupdate]
    simp [sumSizes_append, sumSizes_cons]
  · have hbJ1 : busyCount t.procs (idsOf pre) = busyCount s.procs (idsOf pre) :=
      busyCount_congr fun y hy => by
        rw [hptother y (fun heq => hxpre (heq ▸ hy))]
    have hbJ2 : busyCount t.procs (idsOf post) = busyCount s.procs (idsOf post) :=
      busyCount_congr fun y hy => by
        rw [hptother y (fun heq => hxpost (heq ▸ hy))]
    have hbE : busyCount t.procs ws' = busyCount t.procs g.processes :=
      busyCount_perm _ hperm
    have hbtW := busyCount_erase t.procs hx
    have hbsW := busyCount_erase s.procs hx
    have hberase : busyCount t.procs (g.processes.erase x)
        = busyCount s.procs (g.processes.erase x) :=
      busyCount_congr fun y hy => by
        rw [hptother y (hWnodup.mem_erase_iff.1 hy).1]
    have hact := h.activeEq
    rw [hdec, idsOf_append, idsOf_cons, busyCount_append, busyCount_append] at hact
    dsimp only at hact
    have hgoalEq : busyCount t.procs (idsOf t.groups)
        = busyCount s.procs (idsOf pre)
          + (busyCount t.procs g.processes + busyCount s.procs (idsOf post)) := by
      rw [hidsT, busyCount_append, busyCount_append, hbJ1, hbJ2, hbE]
    rcases hcase with ⟨hs0, hp0, hI, hA⟩ | ⟨hs0, hp0, hI, hA⟩ | ⟨hs0, hp0, hI, hA⟩
    · have ht : busyCount t.procs g.processes
          = busyCount s.procs (g.processes.erase x) + 1 := by
        rw [hbtW, hberase, hptx, if_pos hp0]
      have hs : busyCount s.procs g.processes
          = busyCount s.procs (g.processes.erase x) := by
        rw [hbsW, if_neg (by simp [hs0])]
        omega
      rw [hgoalEq, ht, hA]
      omega
    · have ht : busyCount t.procs g.processes
          = busyCount s.procs (g.processes.erase x) + 1 := by
        rw [hbtW, hberase, hptx, if_pos hp0]
      have hs : busyCount s.procs g.processes
          = busyCount s.procs (g.processes.erase x) + 1 := by
        rw [hbsW, if_pos hs0]
      rw [hgoalEq, ht, hA]
      omega
    · have ht : busyCount t.procs g.processes
          = busyCount s.procs (g.processes.erase x) := by
        rw [hbtW, hberase, hptx, if_neg (by simp [hp0])]
        omega
      have hs : busyCount s.procs g.processes
          = busyCount s.procs (g.processes.erase x) + 1 := by
        rw [hbsW, if_pos hs0]
      rw [hgoalEq, ht, hA]
      omega
  · rcases hcase with ⟨hs0, hp0, hI, hA⟩ | ⟨hs0, hp0, hI, hA⟩ | ⟨hs0, hp0, hI, hA⟩
    · rw [hI]; exact h.inactNodup.erase x
    · rw [hI]; exact h.inactNodup
    · rw [hI]
      have hxnot : x ∉ s.inactiveApps := fun hmem => hs0 (h.inactSub x hmem).2
      simp [List.nodup_append, h.inactNodup, hxnot]
  · intro id hid
    have hmain : id ∈ s.inactiveApps → id ≠ x →
        id ∈ idsOf t.groups ∧ (t.procs id).sessions = 0 := by
      intro hmem hne
      obtain ⟨hI, hidle⟩ := h.inactSub id hmem
      exact ⟨hpermIds.mem_iff.2 hI, by rw [hptother id hne]; exact hidle⟩
    rcases hcase with ⟨hs0, hp0, hI, hA⟩ | ⟨hs0, hp0, hI, hA⟩ | ⟨hs0, hp0, hI, hA⟩
    · rw [hI] at hid
      have hm := h.inactNodup.mem_erase_iff.1 hid
      exact hmain hm.2 hm.1
    · rw [hI] at hid
      have hne : id ≠ x := fun heq => hs0 (heq ▸ (h.inactSub id hid).2)
      exact hmain hid hne
    · rw [hI] at hid
      rcases List.mem_append.1 hid with hmem | hxm
      · have hne : id ≠ x := fun heq => hs0 (heq ▸ (h.inactSub id hmem).2)
        exact hmain hmem hne
      · have hidx : id = x := by simpa using hxm
        subst hidx
        refine ⟨?_, by rw [hptx]; exact hp0⟩
        rw [hidsT]
        exact List.mem_append_right _ (List.mem_append_left _ hxE)
  · intro e' he' id hid hidle
    rw [hupdate] at he'
    have hfromS : id ∈ idsOf s.groups → id ≠ x → id ∈ t.inactiveApps := by
      intro hidS hne
      have hidle' : (s.procs id).sessions = 0 := by
        rw [← hptother id hne]; exact hidle
      obtain ⟨e0, he0, hid0⟩ := mem_idsOf.1 hidS
      have hmem := h.idleInact e0 he0 id hid0 hidle'
      rcases hcase with ⟨hs0, hp0, hI, hA⟩ | ⟨hs0, hp0, hI, hA⟩ | ⟨hs0, hp0, hI, hA⟩
      · rw [hI]; exact (List.mem_erase_of_ne hne).2 hmem
      · rw [hI]; exact hmem
      · rw [hI]; exact List.mem_append_left _ hmem
    rcases List.mem_append.1 he' with hp | hmid
    · have hne := hprenx e' hp id hid
      exact hfromS (mem_idsOf.2 ⟨e', hmempre e' hp, hid⟩) hne
    · rcases List.mem_cons.1 hmid with rfl | hp'
      · have hidW : id ∈ g.processes := hperm.mem_iff.1 hid
        by_cases hix : id = x
        · subst hix
          rcases hcase with ⟨hs0, hp0, hI, hA⟩ | ⟨hs0, hp0, hI, hA⟩ | ⟨hs0, hp0, hI, hA⟩
          · exact absurd hidle (by rw [hptx]; exact hp0)
          · exact absurd hidle (by rw [hptx]; exact hp0)
          · rw [hI]; exact List.mem_append_right _ (by simp)
        · exact hfromS (mem_idsOf.2 ⟨(a, g), hgmem, hidW⟩) hix
      · have hne := hpostnx e' hp' id hid
        exact hfromS (mem_idsOf.2 ⟨e', hmempost e' hp', hid⟩) hne

/-- Appending a fresh busy worker at the back of an existing group (spawn into an
existing group, followed by the common selection tail) preserves well-formedness. -/
theorem WF_spawnInGroupTail {s t : PoolState} (h : WF s) {a : String} {g : Group}
    (hf : findGroup s.groups a = some g) {nid : WorkerId}
    (hfresh : nid ∉ idsOf s.groups) (p' : ProcessInfo)
    (happ : p'.appRoot = a) (hbusy : p'.sessions ≠ 0)
    (hgt : t.groups = updateGroup s.groups a
      { g with processes := g.processes ++ [nid], size := g.size + 1 })
    (hpt : t.procs = setProc s.procs nid p')
    (hct : t.count = s.count + 1) (hat : t.active = s.active + 1)
    (hit : t.inactiveApps = s.inactiveApps) : WF t := by
  obtain ⟨pre, post, hdec, hpre, hpost⟩ := WF_findGroup_decomp h hf
  have hgmem : (a, g) ∈ s.groups := by
    rw [hdec]; exact List.mem_append_right _ (List.mem_cons_self _ _)
  have hptx : t.procs nid = p' := by rw [hpt]; exact setProc_same _ _ _
  have hptother : ∀ y, y ≠ nid → t.procs y = s.procs y := fun y hy => by
    rw [hpt]; exact setProc_other _ _ _ hy
  have hupdate : t.groups = pre ++
      (a, { g with processes := g.processes ++ [nid], size := g.size + 1 }) :: post := by
    rw [hgt, hdec, updateGroup_decomp hpre _ post g]
  have hidsT : idsOf t.groups = idsOf pre ++ ((g.processes ++ [nid]) ++ idsOf post) := by
    rw [hupdate, idsOf_append, idsOf_cons]
  have hpermIds : List.Perm (idsOf t.groups) (nid :: idsOf s.groups) := by
    rw [hidsT, hdec, idsOf_append, idsOf_cons]
    have h1 : idsOf pre ++ (g.processes ++ [nid] ++ idsOf post)
        = (idsOf pre ++ g.processes) ++ nid :: idsOf post := by
      simp [List.append_assoc]
    have h3 : nid :: (idsOf pre ++ ((a, g).2.processes ++ idsOf post))
        = nid :: ((idsOf pre ++ g.processes) ++ idsOf post) := by
      simp [List.append_assoc]
    rw [h1, h3]
    exact List.perm_middle
  have hmempre : ∀ e ∈ pre, e ∈ s.groups := fun e he => by
    rw [hdec]; exact List.mem_append_left _ he
  have hmempost : ∀ e ∈ post, e ∈ s.groups := fun e he => by
    rw [hdec]; exact List.mem_append_right _ (List.mem_cons_of_mem _ he)
  have hmemnx : ∀ e ∈ s.groups, ∀ id ∈ e.2.processes, id ≠ nid := fun e he id hid heq =>
    hfresh (heq ▸ mem_idsOf.2 ⟨e, he, hid⟩)
  refine ⟨?_, ?_, ?_, ?_, ?_, ?_, ?_, ?_, ?_, ?_, ?_⟩
  · have hk := h.keysNodup
    rw [hdec] at hk
    rw [hupdate]
    simpa using hk
  · refine hpermIds.symm.nodup ?_
    exact List.nodup_cons.2 ⟨hfresh, h.idsNodup⟩
  · intro e' he'
    rw [hupdate] at he'
    rcases List.mem_append.1 he' with hp | hmid
    · exact h.groupsNonempty e' (hmempre e' hp)
    · rcases List.mem_cons.1 hmid with rfl | hp'
      · simp
      · exact h.groupsNonempty e' (hmempost e' hp')
  · intro e' he'
    rw [hupdate] at he'
    rcases List.mem_append.1 he' with hp | hmid
    · exact h.sizesEq e' (hmempre e' hp)
    · rcases List.mem_cons.1 hmid with rfl | hp'
      · have hsz' := h.sizesEq (a, g) hgmem
        dsimp only at hsz'
        show g.size + 1 = (g.processes ++ [nid]).length
        simp only [List.length_append, List.length_cons, List.length_nil]
        omega
      · exact h.sizesEq e' (hmempost e' hp')
  · intro e' he' id hid
    rw [hupdate] at he'
    rcases List.mem_append.1 he' with hp | hmid
    · rw [hptother id (hmemnx e' (hmempre e' hp) id hid)]
      exact h.rootsEq e' (hmempre e' hp) id hid
    · rcases List.mem_cons.1 hmid with rfl | hp'
      · rcases List.mem_append.1 hid with hW | hnid
        · rw [hptother id (hmemnx (a, g) hgmem id hW)]
          exact h.rootsEq (a, g) hgmem id hW
        · have : id = nid := by simpa using hnid
          subst this
          rw [hptx]
          exact happ
      · rw [hptother id (hmemnx e' (hmempost e' hp') id hid)]
        exact h.rootsEq e' (hmempost e' hp') id hid
  · intro e' he'
    rw [hupdate] at he'
    rcases List.mem_append.1 he' with hp | hmid
    · refine List.Pairwise.imp_of_mem ?_ (h.ordered e' (hmempre e' hp))
      intro u v hu hv hr
      rw [hptother u (hmemnx e' (hmempre e' hp) u hu),
        hptother v (hmemnx e' (hmempre e' hp) v hv)]
      exact hr
    · rcases List.mem_cons.1 hmid with rfl | hp'
      · show (g.processes ++ [nid]).Pairwise _
        refine List.pairwise_append.2 ⟨?_, ?_, ?_⟩
        · refine List.Pairwise.imp_of_mem ?_ (h.ordered (a, g) hgmem)
          intro u v hu hv hr
          rw [hptother u (hmemnx (a, g) hgmem u hu),
            hptother v (hmemnx (a, g) hgmem v hv)]
          exact hr
        · simp
        · intro u hu v hv
          have : v = nid := by simpa using hv
          subst this
          intro _
          rw [hptx]
          exact hbusy
      · refine List.Pairwise.imp_of_mem ?_ (h.ordered e' (hmempost e' hp'))
        intro u v hu hv hr
        rw [hptother u (hmemnx e' (hmempost e' hp') u hu),
          hptother v (hmemnx e' (hmempost e' hp') v hv)]
        exact hr
  · have hc := h.countEq
    rw [hdec] at hc
    rw [hct, hupdate, sumSizes_append, sumSizes_cons]
    rw [sumSizes_append, sumSizes_cons] at hc
    dsimp only at hc ⊢
    omega
  · have hact := h.activeEq
    rw [hdec, idsOf_append, idsOf_cons, busyCount_append, busyCount_append] at hact
    dsimp only at hact
    have hsubpre : ∀ y ∈ idsOf pre, y ∈ idsOf s.groups := fun y hy => by
      rw [hdec, idsOf_append, idsOf_cons]
      exact List.mem_append_left _ hy
    have hsubpost : ∀ y ∈ idsOf post, y ∈ idsOf s.groups := fun y hy => by
      rw [hdec, idsOf_append, idsOf_cons]
      exact List.mem_append_right _ (List.mem_append_right _ hy)
    have hsubW : ∀ y ∈ g.processes, y ∈ idsOf s.groups := fun y hy =>
      mem_idsOf.2 ⟨(a, g), hgmem, hy⟩
    have hbJ1 : busyCount t.procs (idsOf pre) = busyCount s.procs (idsOf pre) :=
      busyCount_congr fun y hy => by
        rw [hptother y fun heq => hfresh (heq ▸ hsubpre y hy)]
    have hbJ2 : busyCount t.procs (idsOf post) = busyCount s.procs (idsOf post) :=
      busyCount_congr fun y hy => by
        rw [hptother y fun heq => hfresh (heq ▸ hsubpost y hy)]
    have hbW : busyCount t.procs g.processes = busyCount s.procs g.processes :=
      busyCount_congr fun y hy => by
        rw [hptother y fun heq => hfresh (heq ▸ hsubW y hy)]
    have hbnid : busyCount t.procs [nid] = 1 := by
      rw [busyCount_cons]
      simp [busyCount, hptx, hbusy]
    rw [hat, hidsT, busyCount_append, busyCount_append, busyCount_append,
      hbJ1, hbJ2, hbW, hbnid]
    omega
  · rw [hit]; exact h.inactNodup
  · intro id hid
    rw [hit] at hid
    obtain ⟨hI, hidle⟩ := h.inactSub id hid
    have hne : id ≠ nid := fun heq => hfresh (heq ▸ hI)
    refine ⟨hpermIds.mem_iff.2 (List.mem_cons_of_mem _ hI), ?_⟩
    rw [hptother id hne]
    exact hidle
  · intro e' he' id hid hidle
    rw [hit]
    rw [hupdate] at he'
    have hfromS : ∀ e0 ∈ s.groups, id ∈ e0.2.processes → id ∈ s.inactiveApps := by
      intro e0 he0 hid0
      have hne := hmemnx e0 he0 id hid0
      have : (s.procs id).sessions = 0 := by rw [← hptother id hne]; exact hidle
      exact h.idleInact e0 he0 id hid0 this
    rcases List.mem_append.1 he' with hp | hmid
    · exact hfromS e' (hmempre e' hp) hid
    · rcases List.mem_cons.1 hmid with rfl | hp'
      · rcases List.mem_append.1 hid with hW | hnid
        · exact hfromS (a, g) hgmem hW
        · have : id = nid := by simpa using hnid
          subst this
          rw [hptx] at hidle
          exact absurd hidle hbusy
      · exact hfromS e' (hmempost e' hp') hid

/-- Creating a fresh group holding one fresh busy worker preserves well-formedness. -/
theorem WF_spawnNewGroupTail {s t : PoolState} (h : WF s) {aR : String}
    (hnone : findGroup s.groups aR = none) {nid : WorkerId}
    (hfresh : nid ∉ idsOf s.groups) (p' : ProcessInfo)
    (happ : p'.appRoot = aR) (hbusy : p'.sessions ≠ 0) {mr : Nat}
    (hgt : t.groups = s.groups ++ [(aR, { processes := [nid], size := 1, maxRequests := mr })])
    (hpt : t.procs = setProc s.procs nid p')
    (hct : t.count = s.count + 1) (hat : t.active = s.active + 1)
    (hit : t.inactiveApps = s.inactiveApps) : WF t := by
  have hkeys := findGroup_eq_none.1 hnone
  have hptx : t.procs nid = p' := by rw [hpt]; exact setProc_same _ _ _
  have hptother : ∀ y, y ≠ nid → t.procs y = s.procs y := fun y hy => by
    rw [hpt]; exact setProc_other _ _ _ hy
  have hmemnx : ∀ e ∈ s.groups, ∀ id ∈ e.2.processes, id ≠ nid := fun e he id hid heq =>
    hfresh (heq ▸ mem_idsOf.2 ⟨e, he, hid⟩)
  have hidsT : idsOf t.groups = idsOf s.groups ++ [nid] := by
    rw [hgt, idsOf_append]
    rfl
  refine ⟨?_, ?_, ?_, ?_, ?_, ?_, ?_, ?_, ?_, ?_, ?_⟩
  · rw [hgt, List.map_append]
    refine List.nodup_append.2 ⟨h.keysNodup, by simp, ?_⟩
    intro k hk hk'
    have hkaR : k = aR := by simpa using hk'
    obtain ⟨e, he, hke⟩ := List.mem_map.1 hk
    exact hkeys e he (by rw [hke, hkaR])
  · rw [hidsT]
    refine List.nodup_append.2 ⟨h.idsNodup, by simp, ?_⟩
    intro y hy hy'
    have : y = nid := by simpa using hy'
    exact hfresh (this ▸ hy)
  · intro e' he'
    rw [hgt] at he'
    rcases List.mem_append.1 he' with hp | hmid
    · exact h.groupsNonempty e' hp
    · have : e' = (aR, { processes := [nid], size := 1, maxRequests := mr }) := by
        simpa using hmid
      subst this
      simp
  · intro e' he'
    rw [hgt] at he'
    rcases List.mem_append.1 he' with hp | hmid
    · exact h.sizesEq e' hp
    · have : e' = (aR, { processes := [nid], size := 1, maxRequests := mr }) := by
        simpa using hmid
      subst this
      rfl
  · intro e' he' id hid
    rw [hgt] at he'
    rcases List.mem_append.1 he' with hp | hmid
    · rw [hptother id (hmemnx e' hp id hid)]
      exact h.rootsEq e' hp id hid
    · have he2 : e' = (aR, { processes := [nid], size := 1, maxRequests := mr }) := by
        simpa using hmid
      subst he2
      have : id = nid := by simpa using hid
      subst this
      rw [hptx]
      exact happ
  · intro e' he'
    rw [hgt] at he'
    rcases List.mem_append.1 he' with hp | hmid
    · refine List.Pairwise.imp_of_mem ?_ (h.ordered e' hp)
      intro u v hu hv hr
      rw [hptother u (hmemnx e' hp u hu), hptother v (hmemnx e' hp v hv)]
      exact hr
    · have he2 : e' = (aR, { processes := [nid], size := 1, maxRequests := mr }) := by
        simpa using hmid
      subst he2
      simp
  · rw [hct, hgt, sumSizes_append, sumSizes_cons, h.countEq]
    rfl
  · rw [hat, hidsT, busyCount_append]
    have hbS : busyCount t.procs (idsOf s.groups) = busyCount s.procs (idsOf s.groups) :=
      busyCount_congr fun y hy => by
        rw [hptother y fun heq => hfresh (heq ▸ hy)]
    have hbnid : busyCount t.procs [nid] = 1 := by
      rw [busyCount_cons]
      simp [busyCount, hptx, hbusy]
    rw [hbS, hbnid, h.activeEq]
  · rw [hit]; exact h.inactNodup
  · intro id hid
    rw [hit] at hid
    obtain ⟨hI, hidle⟩ := h.inactSub id hid
    have hne : id ≠ nid := fun heq => hfresh (heq ▸ hI)
    refine ⟨by rw [hidsT]; exact List.mem_append_left _ hI, ?_⟩
    rw [hptother id hne]
    exact hidle
  · intro e' he' id hid hidle
    rw [hit]
    rw [hgt] at he'
    rcases List.mem_append.1 he' with hp | hmid
    · have hne := hmemnx e' hp id hid
      have : (s.procs id).sessions = 0 := by rw [← hptother id hne]; exact hidle
      exact h.idleInact e' hp id hid this
    · have he2 : e' = (aR, { processes := [nid], size := 1, maxRequests := mr }) := by
        simpa using hmid
      subst he2
      have : id = nid := by simpa using hid
      subst this
      rw [hptx] at hidle
      exact absurd hidle hbusy

/-! ### The restart purge -/

theorem purgeFold_eq (procs : WorkerId → ProcessInfo) (W : List WorkerId) :
    ∀ ia act cnt, W.foldl (purgeFoldStep procs) (ia, act, cnt)
      = (W.foldl (fun l id => if (procs id).sessions = 0 then l.erase id else l) ia,
         act - busyCount procs W, cnt - W.length) := by
  induction W with
  | nil =>
    intro ia act cnt
    simp [busyCount]
  | cons x W ih =>
    intro ia act cnt
    simp only [List.foldl_cons]
    by_cases hx : (procs x).sessions = 0
    · rw [show purgeFoldStep procs (ia, act, cnt) x = (ia.erase x, act, cnt - 1) from by
        simp [purgeFoldStep, hx]]
      rw [ih, if_pos hx, busyCount_cons]
      have hiz : (if (procs x).sessions ≠ 0 then 1 else 0) = 0 := by simp [hx]
      rw [hiz]
      simp only [Prod.mk.injEq, List.length_cons]
      refine ⟨?_, by omega, by omega⟩
      try rfl
      try trivial
    · rw [show purgeFoldStep procs (ia, act, cnt) x = (ia, act - 1, cnt - 1) from by
        simp [purgeFoldStep, hx]]
      rw [ih, if_neg hx, busyCount_cons]
      have hiz : (if (procs x).sessions ≠ 0 then 1 else 0) = 1 := by simp [hx]
      rw [hiz]
      simp only [Prod.mk.injEq, List.length_cons]
      refine ⟨?_, by omega, by omega⟩
      try rfl
      try trivial

theorem eraseFold_eq_filter (procs : WorkerId → ProcessInfo) (W : List WorkerId) :
    ∀ {ia : List WorkerId}, ia.Nodup →
      W.foldl (fun l id => if (procs id).sessions = 0 then l.erase id else l) ia
        = ia.filter fun x => !(decide (x ∈ W) && decide ((procs x).sessions = 0)) := by
  induction W with
  | nil =>
    intro ia _
    simp
  | cons y W ih =>
    intro ia hia
    rw [List.foldl_cons]
    by_cases hy : (procs y).sessions = 0
    · rw [if_pos hy, ih (hia.erase y), erase_eq_filter_not_beq hia y, List.filter_filter]
      refine List.filter_congr fun x hx => ?_
      by_cases hxy : x = y
      · subst hxy
        simp [hy]
      · by_cases hxw : x ∈ W <;> simp [hxy, hxw, List.mem_cons]
    · rw [if_neg hy, ih hia]
      refine List.filter_congr fun x hx => ?_
      by_cases hxy : x = y
      · subst hxy
        simp [hy]
      · simp [hxy, List.mem_cons]

theorem filter_mem_idsOf {s : PoolState} (h : WF s) {a : String} {g : Group}
    (hf : findGroup s.groups a = some g) :
    (idsOf s.groups).filter (fun x => decide (x ∈ g.processes)) = g.processes := by
  obtain ⟨pre, post, hdec, hpre, hpost⟩ := WF_findGroup_decomp h hf
  have hids := h.idsNodup
  rw [hdec, idsOf_append, idsOf_cons] at hids
  have hsplit := List.nodup_append.1 hids
  have hsplit2 := List.nodup_append.1 hsplit.2.1
  have hpreW : ∀ id ∈ idsOf pre, id ∉ g.processes := fun id hid hmem =>
    hsplit.2.2 hid (List.mem_append_left _ hmem)
  have hpostW : ∀ id ∈ idsOf post, id ∉ g.processes := fun id hid hmem =>
    hsplit2.2.2 hmem hid
  rw [hdec, idsOf_append, idsOf_cons, List.filter_append, List.filter_append]
  have h1 : (idsOf pre).filter (fun x => decide (x ∈ g.processes)) = [] :=
    List.filter_eq_nil_iff.2 fun x hx => by simp [hpreW x hx]
  have h2 : ((a, g).2.processes).filter (fun x => decide (x ∈ g.processes))
      = g.processes :=
    List.filter_eq_self.2 fun x hx => by simpa using hx
  have h3 : (idsOf post).filter (fun x => decide (x ∈ g.processes)) = [] :=
    List.filter_eq_nil_iff.2 fun x hx => by simp [hpostW x hx]
  rw [h1, h2, h3]
  simp

theorem countP_mem_idsOf {s : PoolState} (h : WF s) {a : String} {g : Group}
    (hf : findGroup s.groups a = some g) :
    (idsOf s.groups).countP (fun x => decide (x ∈ g.processes)) = g.processes.length := by
  rw [List.countP_eq_length_filter, filter_mem_idsOf h hf]

theorem eraseGroup_eq_dropWorkers {s : PoolState} (h : WF s) {a : String} {g : Group}
    (hf : findGroup s.groups a = some g) :
    eraseGroup s.groups a = dropWorkers (fun x => decide (x ∈ g.processes)) s.groups := by
  obtain ⟨pre, post, hdec, hpre, hpost⟩ := WF_findGroup_decomp h hf
  have hids := h.idsNodup
  rw [hdec, idsOf_append, idsOf_cons] at hids
  have hsplit := List.nodup_append.1 hids
  have hsplit2 := List.nodup_append.1 hsplit.2.1
  have hpreW : ∀ id ∈ idsOf pre, id ∉ g.processes := fun id hid hmem =>
    hsplit.2.2 hid (List.mem_append_left _ hmem)
  have hpostW : ∀ id ∈ idsOf post, id ∉ g.processes := fun id hid hmem =>
    hsplit2.2.2 hmem hid
  have hdpre : dropWorkers (fun x => decide (x ∈ g.processes)) pre = pre :=
    dropWorkers_id
      (fun e he => h.groupsNonempty e (by rw [hdec]; exact List.mem_append_left _ he))
      (fun e he => h.sizesEq e (by rw [hdec]; exact List.mem_append_left _ he))
      (fun e he id hid => by
        have hm : id ∈ idsOf pre := mem_idsOf.2 ⟨e, he, hid⟩
        simp [hpreW id hm])
  have hdpost : dropWorkers (fun x => decide (x ∈ g.processes)) post = post :=
    dropWorkers_id
      (fun e he => h.groupsNonempty e
        (by rw [hdec]; exact List.mem_append_right _ (List.mem_cons_of_mem _ he)))
      (fun e he => h.sizesEq e
        (by rw [hdec]; exact List.mem_append_right _ (List.mem_cons_of_mem _ he)))
      (fun e he id hid => by
        have hm : id ∈ idsOf post := mem_idsOf.2 ⟨e, he, hid⟩
        simp [hpostW id hm])
  have hmid : (((a, g) : String × Group)).2.processes.filter
      (fun id => !decide (id ∈ g.processes)) = [] :=
    List.filter_eq_nil_iff.2 fun x hx => by simpa using hx
  rw [hdec, dropWorkers_append, hdpre, dropWorkers_cons_of_filter hmid, if_pos rfl,
    hdpost, eraseGroup_decomp hpre post g]

theorem purgeGroup_spec {s : PoolState} (h : WF s) {a : String} {g : Group}
    (hf : findGroup s.groups a = some g) :
    purgeGroup s a = { s with
      groups := dropWorkers (fun x => decide (x ∈ g.processes)) s.groups,
      inactiveApps := s.inactiveApps.filter fun x => !decide (x ∈ g.processes),
      active := s.active - busyCount s.procs g.processes,
      count := s.count - g.processes.length,
      cvSignals := s.cvSignals + 1 } := by
  have hfc : s.inactiveApps.filter
      (fun x => !(decide (x ∈ g.processes) && decide ((s.procs x).sessions = 0)))
      = s.inactiveApps.filter (fun x => !decide (x ∈ g.processes)) :=
    List.filter_congr fun x hx => by
      have hidle := (h.inactSub x hx).2
      simp [hidle]
  simp only [purgeGroup, hf]
  rw [purgeFold_eq, eraseFold_eq_filter s.procs g.processes h.inactNodup, hfc,
    eraseGroup_eq_dropWorkers h hf]

theorem findGroup_mem {gs : List (String × Group)} {a : String} {g : Group}
    (hf : findGroup gs a = some g) : (a, g) ∈ gs := by
  obtain ⟨pre, post, hdec, _⟩ := findGroup_decomp hf
  rw [hdec]
  exact List.mem_append_right _ (List.mem_cons_self _ _)

theorem WF_group_nodup {s : PoolState} (h : WF s) {a : String} {g : Group}
    (hf : findGroup s.groups a = some g) : g.processes.Nodup := by
  obtain ⟨pre, post, hdec, hpre, hpost⟩ := WF_findGroup_decomp h hf
  have hids := h.idsNodup
  rw [hdec, idsOf_append, idsOf_cons] at hids
  exact (List.nodup_append.1 (List.nodup_append.1 hids).2.1).1

theorem setProc_setProc (f : WorkerId → ProcessInfo) (i : WorkerId)
    (p q : ProcessInfo) : setProc (setProc f i p) i q = setProc f i q := by
  funext j
  by_cases hj : j = i <;> simp [setProc, hj]

theorem findGroup_updateGroup {s : PoolState} (h : WF s) {a : String} {g : Group}
    (hf : findGroup s.groups a = some g) (g2 : Group) :
    findGroup (updateGroup s.groups a g2) a = some g2 := by
  obtain ⟨pre, post, hdec, hpre, _⟩ := WF_findGroup_decomp h hf
  rw [hdec, updateGroup_decomp hpre _ post g, findGroup_append_of_not_mem hpre]
  simp [findGroup]

theorem leastBusyOf_mem (procs : WorkerId → ProcessInfo) (w : WorkerId)
    (rest : List WorkerId) : leastBusyOf procs w rest ∈ w :: rest := by
  induction rest generalizing w with
  | nil => simp [leastBusyOf]
  | cons y rest ih =>
    have hstep : leastBusyOf procs w (y :: rest)
        = leastBusyOf procs (if (procs y).sessions < (procs w).sessions then y else w)
            rest := by
      simp [leastBusyOf]
    rw [hstep]
    have := ih (if (procs y).sessions < (procs w).sessions then y else w)
    rcases List.mem_cons.1 this with heq | hmem
    · rw [heq]
      by_cases hc : (procs y).sessions < (procs w).sessions <;> simp [hc]
    · simp [List.mem_cons, hmem]

/-! ### Eviction, session close, connect-failure cleanup -/

theorem evictLRU_spec {s : PoolState} (h : WF s) {w : WorkerId} {rest : List WorkerId}
    (hia : s.inactiveApps = w :: rest) :
    evictLRU s = { s with groups := (dropWorkers (fun x => x == w) s.groups),
                          inactiveApps := rest, count := s.count - 1 } := by
  have hmem : w ∈ s.inactiveApps := by rw [hia]; simp
  obtain ⟨hI, hidle⟩ := h.inactSub w hmem
  obtain ⟨g, hfind, hwg⟩ := WF_locate h hI
  simp only [evictLRU, hia, hfind]
  rw [← remove_eq_dropWorkers h hfind hwg]

theorem WF_evictLRU {s : PoolState} (h : WF s) : WF (evictLRU s) := by
  cases hia : s.inactiveApps with
  | nil =>
    simp only [evictLRU, hia]
    exact h
  | cons w rest =>
    have hmem : w ∈ s.inactiveApps := by rw [hia]; simp
    obtain ⟨hI, hidle⟩ := h.inactSub w hmem
    rw [evictLRU_spec h hia]
    refine WF_removeOne h hI rfl rfl ?_ ?_ ?_
    · rw [if_pos hidle]
    · rw [if_pos hidle, hia, List.erase_cons_head]
    · intro x _
      rfl

theorem WF_sessionClose {s : PoolState} (h : WF s) (id : WorkerId) (now : Int)
    (hbusy : 0 < (s.procs id).sessions) : WF (sessionClose s id now) := by
  cases hF : findGroup s.groups ((s.procs id).appRoot) with
  | none =>
    simp only [sessionClose, hF]
    exact h
  | some g =>
    by_cases hmem : id ∈ g.processes
    · have hidI : id ∈ idsOf s.groups :=
        mem_idsOf.2 ⟨((s.procs id).appRoot, g), findGroup_mem hF, hmem⟩
      have hWnodup := WF_group_nodup h hF
      simp only [sessionClose, hF, if_pos hmem]
      by_cases hretire : 0 < g.maxRequests ∧
          g.maxRequests ≤ (s.procs id).processed + 1
      · rw [if_pos hretire, remove_eq_dropWorkers h hF hmem]
        have hnz : ¬(s.procs id).sessions = 0 := by omega
        refine WF_removeOne h hidI rfl rfl ?_ ?_ ?_
        · rw [if_neg hnz]
        · rw [if_neg hnz]
        · intro x hx
          exact setProc_other _ _ _ hx
      · rw [if_neg hretire]
        by_cases hz : (s.procs id).sessions - 1 = 0
        · rw [if_pos hz]
          have hnz : (s.procs id).sessions ≠ 0 := by omega
          refine WF_permGroup h hF hmem (by simp)
            ((List.perm_cons_erase hmem).symm)
            { s.procs id with lastUsed := now,
                              sessions := (s.procs id).sessions - 1,
                              processed := (s.procs id).processed + 1 }
            rfl rfl rfl ?_ rfl ?_
          · dsimp only
            refine List.pairwise_cons.2 ⟨?_, ?_⟩
            · intro v hv habs
              rw [setProc_same] at habs
              dsimp only at habs
              exact absurd hz habs
            · refine List.Pairwise.imp_of_mem ?_
                ((h.ordered _ (findGroup_mem hF)).sublist (List.erase_sublist _ _))
              intro u v hu hv hr
              have hun : u ≠ id := (hWnodup.mem_erase_iff.1 hu).1
              have hvn : v ≠ id := (hWnodup.mem_erase_iff.1 hv).1
              rw [setProc_other _ _ _ hun, setProc_other _ _ _ hvn]
              exact hr
          · refine Or.inr (Or.inr ⟨hnz, by simpa using hz, rfl, rfl⟩)
        · rw [if_neg hz]
          have hnz : (s.procs id).sessions ≠ 0 := by omega
          have hdecomp := WF_findGroup_decomp h hF
          obtain ⟨pre, post, hdec, hpre, hpost⟩ := hdecomp
          have hgid : updateGroup s.groups ((s.procs id).appRoot) g = s.groups := by
            rw [hdec, updateGroup_decomp hpre _ post g]
          refine WF_permGroup h hF hmem hmem (List.Perm.refl _)
            { s.procs id with lastUsed := now,
                              sessions := (s.procs id).sessions - 1,
                              processed := (s.procs id).processed + 1 }
            rfl
            (by rw [show ({ g with processes := g.processes } : Group) = g from rfl, hgid])
            rfl ?_ rfl ?_
          · dsimp only
            refine List.Pairwise.imp_of_mem ?_ (h.ordered _ (findGroup_mem hF))
            intro u v hu hv hr hbu
            by_cases hv' : v = id
            · subst hv'
              rw [setProc_same]
              simpa using hz
            · rw [setProc_other _ _ _ hv']
              apply hr
              by_cases hu' : u = id
              · subst hu'
                exact hnz
              · rw [setProc_other _ _ _ hu'] at hbu
                exact hbu
          · exact Or.inr (Or.inl ⟨hnz, by simpa using hz, rfl, rfl⟩)
    · simp only [sessionClose, hF, if_neg hmem]
      exact h

theorem WF_connectFailCleanup {s' : PoolState} (h : WF s') {aR : String} {g : Group}
    (hf : findGroup s'.groups aR = some g) {id : WorkerId} (hmem : id ∈ g.processes)
    (hbusy : (s'.procs id).sessions ≠ 0) :
    WF (connectFailCleanup s' aR id) := by
  have hidI : id ∈ idsOf s'.groups := mem_idsOf.2 ⟨(aR, g), findGroup_mem hf, hmem⟩
  simp only [connectFailCleanup]
  rw [hf]
  dsimp only
  rw [remove_eq_dropWorkers h hf hmem]
  refine WF_removeOne h hidI rfl rfl ?_ ?_ ?_
  · rw [if_neg hbusy]
  · rw [if_neg hbusy]
  · intro x hx
    exact setProc_other _ _ _ hx

/-! ### Consequences of the invariants, and more `findGroup` facts -/

theorem WF_inactive_length {s : PoolState} (h : WF s) :
    s.active ≤ s.count ∧ s.inactiveApps.length = s.count - s.active := by
  have hcnt : s.count = (idsOf s.groups).length := by
    rw [h.countEq]
    exact sumSizes_eq_length_idsOf h.sizesEq
  have hperm : List.Perm s.inactiveApps
      ((idsOf s.groups).filter (fun id => (s.procs id).sessions == 0)) := by
    refine (List.perm_ext_iff_of_nodup h.inactNodup (h.idsNodup.filter _)).2 ?_
    intro x
    rw [List.mem_filter]
    constructor
    · intro hx
      obtain ⟨hI, hidle⟩ := h.inactSub x hx
      exact ⟨hI, by simpa using hidle⟩
    · rintro ⟨hI, hidle⟩
      obtain ⟨e, he, hmem⟩ := mem_idsOf.1 hI
      exact h.idleInact e he x hmem (by simpa using hidle)
  have hlen := hperm.length_eq
  have hsplit := countP_split (fun _ => true)
    (fun id => (s.procs id).sessions == 0) (idsOf s.groups)
  simp only [List.countP_true] at hsplit
  have hflen := List.countP_eq_length_filter
    (fun id => (s.procs id).sessions == 0) (idsOf s.groups)
  have hae : s.active
      = (idsOf s.groups).countP (fun a => !((s.procs a).sessions == 0)) := h.activeEq
  have hflen2 := List.countP_eq_length_filter
    (fun a => !((s.procs a).sessions == 0)) (idsOf s.groups)
  omega

theorem inactive_nonempty {s : PoolState} (h : WF s) (hlt : s.active < s.count) :
    ∃ w rest, s.inactiveApps = w :: rest := by
  obtain ⟨hle, hlen⟩ := WF_inactive_length h
  cases hia : s.inactiveApps with
  | nil =>
    exfalso
    rw [hia] at hlen
    simp only [List.length_nil] at hlen
    omega
  | cons w rest => exact ⟨w, rest, rfl⟩

theorem findGroup_dropWorkers_none {gs : List (String × Group)} {aR : String}
    {p : WorkerId → Bool} (hn : findGroup gs aR = none) :
    findGroup (dropWorkers p gs) aR = none := by
  rw [findGroup_eq_none] at hn ⊢
  intro e he
  obtain ⟨e0, he0, _, rfl⟩ := mem_dropWorkers.1 he
  exact hn e0 he0

theorem not_mem_idsOf_dropWorkers {gs : List (String × Group)} {p : WorkerId → Bool}
    {nid : WorkerId} (h : nid ∉ idsOf gs) : nid ∉ idsOf (dropWorkers p gs) := by
  rw [idsOf_dropWorkers]
  intro hmem
  exact h (List.mem_filter.1 hmem).1

theorem findGroup_append_new {gs : List (String × Group)} {aR : String}
    (hn : findGroup gs aR = none) (g : Group) :
    findGroup (gs ++ [(aR, g)]) aR = some g := by
  rw [findGroup_eq_none] at hn
  rw [findGroup_append_of_not_mem hn]
  simp [findGroup]

/-! ### The selection branches composed with the common tail -/

theorem commonTail_spawnInGroup (s : PoolState) (a : String) (g : Group)
    (nid : WorkerId) (now : Int) :
    commonTail (spawnInGroup s a g nid now) nid now
      = { s with
          procs := (setProc s.procs nid
            { appRoot := a, startTime := now, lastUsed := now,
              sessions := 1, processed := 0 }),
          groups := (updateGroup s.groups a
            { g with processes := g.processes ++ [nid], size := g.size + 1 }),
          count := s.count + 1, active := s.active + 1,
          cvSignals := s.cvSignals + 1 } := by
  simp only [commonTail, spawnInGroup, setProc_setProc, setProc_same, newWorker]

theorem commonTail_spawnNewGroup (s : PoolState) (opts : PoolOptions)
    (nid : WorkerId) (now : Int) :
    commonTail (spawnNewGroup s opts nid now) nid now
      = { s with
          procs := (setProc s.procs nid
            { appRoot := opts.appRoot, startTime := now, lastUsed := now,
              sessions := 1, processed := 0 }),
          groups := s.groups ++
            [(opts.appRoot, { processes := [nid], size := 1,
                              maxRequests := opts.maxRequests })],
          count := s.count + 1, active := s.active + 1,
          cvSignals := s.cvSignals + 1 } := by
  simp only [commonTail, spawnNewGroup, setProc_setProc, setProc_same, newWorker]

theorem WF_selectFrontTail {s : PoolState} (h : WF s) {a : String} {g : Group}
    (hf : findGroup s.groups a = some g) {w : WorkerId} {rest : List WorkerId}
    (hw : g.processes = w :: rest) (hidle : (s.procs w).sessions = 0) (now : Int) :
    WF (commonTail (selectFront s a g w rest) w now) := by
  have hmemW : w ∈ g.processes := by rw [hw]; simp
  have hWnodup := WF_group_nodup h hf
  have hwrest : w ∉ rest := by
    rw [hw] at hWnodup
    exact (List.nodup_cons.1 hWnodup).1
  refine WF_permGroup h hf hmemW
    (List.mem_append_right rest (List.mem_cons_self w []))
    (show (rest ++ [w]).Perm g.processes by
      rw [hw]
      exact List.perm_append_singleton _ _)
    { s.procs w with lastUsed := now, sessions := (s.procs w).sessions + 1 }
    rfl rfl rfl ?_ rfl ?_
  · simp only [commonTail, selectFront]
    refine List.pairwise_append.2 ⟨?_, by simp, ?_⟩
    · have htail : rest.Pairwise
          (fun u v => (s.procs u).sessions ≠ 0 → (s.procs v).sessions ≠ 0) := by
        have hordg := h.ordered (a, g) (findGroup_mem hf)
        rw [hw] at hordg
        exact (List.pairwise_cons.1 hordg).2
      refine List.Pairwise.imp_of_mem ?_ htail
      intro u v hu hv hr
      have hun : u ≠ w := fun heq => hwrest (heq ▸ hu)
      have hvn : v ≠ w := fun heq => hwrest (heq ▸ hv)
      rw [setProc_other _ _ _ hun, setProc_other _ _ _ hvn]
      exact hr
    · intro u hu v hv
      have hvw : v = w := by simpa using hv
      subst hvw
      intro _
      rw [setProc_same]
      simp
  · exact Or.inl ⟨hidle, by simp, rfl, rfl⟩

theorem WF_selectLeastBusyTail {s : PoolState} (h : WF s) {a : String} {g : Group}
    (hf : findGroup s.groups a = some g) {w : WorkerId} {rest : List WorkerId}
    (hw : g.processes = w :: rest) (hbusyfront : (s.procs w).sessions ≠ 0) (now : Int) :
    WF (commonTail (selectLeastBusy s a g (leastBusyOf s.procs w rest))
      (leastBusyOf s.procs w rest) now) := by
  have hsmmem : leastBusyOf s.procs w rest ∈ g.processes := by
    rw [hw]
    exact leastBusyOf_mem _ _ _
  have hall : ∀ y ∈ g.processes, (s.procs y).sessions ≠ 0 := by
    intro y hy
    have hordg := h.ordered (a, g) (findGroup_mem hf)
    rw [hw] at hordg hy
    exact all_busy_of_front hordg hbusyfront y hy
  refine WF_permGroup h hf hsmmem
    (List.mem_append_right _ (List.mem_cons_self _ []))
    ((List.perm_append_singleton _ _).trans (List.perm_cons_erase hsmmem).symm)
    { s.procs (leastBusyOf s.procs w rest) with
      lastUsed := now,
      sessions := (s.procs (leastBusyOf s.procs w rest)).sessions + 1 }
    rfl rfl rfl ?_ rfl ?_
  · simp only [commonTail, selectLeastBusy]
    refine pairwise_busy_of_all ?_
    intro y hy
    by_cases hysm : y = leastBusyOf s.procs w rest
    · subst hysm
      rw [setProc_same]
      simp
    · rw [setProc_other _ _ _ hysm]
      apply hall
      rcases List.mem_append.1 hy with h1 | h2
      · exact List.mem_of_mem_erase h1
      · exact absurd (by simpa using h2) hysm
  · exact Or.inr (Or.inl ⟨hall _ hsmmem, by simp, rfl, rfl⟩)

theorem WF_spawnInGroupState {s : PoolState} (h : WF s) {a : String} {g : Group}
    (hf : findGroup s.groups a = some g) {nid : WorkerId}
    (hfresh : nid ∉ idsOf s.groups) (now : Int) :
    WF (commonTail (spawnInGroup s a g nid now) nid now) := by
  rw [commonTail_spawnInGroup]
  exact WF_spawnInGroupTail h hf hfresh
    { appRoot := a, startTime := now, lastUsed := now, sessions := 1, processed := 0 }
    rfl (by simp) rfl rfl rfl rfl rfl

theorem WF_spawnNewGroupState {s : PoolState} (h : WF s) {opts : PoolOptions}
    (hnone : findGroup s.groups opts.appRoot = none) {nid : WorkerId}
    (hfresh : nid ∉ idsOf s.groups) (now : Int) :
    WF (commonTail (spawnNewGroup s opts nid now) nid now) := by
  rw [commonTail_spawnNewGroup]
  exact WF_spawnNewGroupTail h hnone hfresh
    { appRoot := opts.appRoot, startTime := now, lastUsed := now,
      sessions := 1, processed := 0 }
    rfl (by simp) rfl rfl rfl rfl rfl

/-- Well-formedness of the state reached by the decision tree, together with the
facts that a selected worker is in the requested group with an outstanding session. -/
theorem acqCore_spec {s : PoolState} (h : WF s) (opts : PoolOptions) (spawnOk : Bool)
    (msg : String) {nid : WorkerId} (hfresh : nid ∉ idsOf s.groups) (now : Int) :
    WF (acqCore s opts spawnOk msg nid now).state ∧
    ∀ id s', acqCore s opts spawnOk msg nid now = .selected id s' →
      ∃ g', findGroup s'.groups opts.appRoot = some g' ∧ id ∈ g'.processes ∧
        (s'.procs id).sessions ≠ 0 := by
  cases hF : findGroup s.groups opts.appRoot with
  | some g =>
    cases hgp : g.processes with
    | nil =>
      simp only [acqCore, hF, hgp, AcqResult.state]
      exact ⟨h, fun id s' hsel => by simp at hsel⟩
    | cons w rest =>
      by_cases hidle : (s.procs w).sessions = 0
      · simp only [acqCore, hF, hgp, if_pos hidle, AcqResult.state]
        refine ⟨WF_selectFrontTail h hF hgp hidle now, ?_⟩
        intro id s' hsel
        rw [AcqResult.selected.injEq] at hsel
        obtain ⟨rfl, rfl⟩ := hsel
        refine ⟨{ g with processes := rest ++ [w] }, ?_, by simp, ?_⟩
        · simp only [commonTail, selectFront]
          exact findGroup_updateGroup h hF _
        · simp [commonTail, selectFront, setProc_same]
      · by_cases hsat : s.max ≤ s.count ∨ (s.maxPerApp ≠ 0 ∧ s.maxPerApp ≤ g.size)
        · cases hq : opts.useGlobalQueue with
          | true =>
            simp only [acqCore, hF, hgp, if_neg hidle, if_pos hsat, hq, if_true,
              AcqResult.state]
            exact ⟨WF_of_eq h rfl rfl rfl rfl rfl, fun id s' hsel => by simp at hsel⟩
          | false =>
            simp only [acqCore, hF, hgp, if_neg hidle, if_pos hsat, hq,
              Bool.false_eq_true, if_false, AcqResult.state]
            refine ⟨WF_selectLeastBusyTail h hF hgp hidle now, ?_⟩
            intro id s' hsel
            rw [AcqResult.selected.injEq] at hsel
            obtain ⟨rfl, rfl⟩ := hsel
            refine ⟨{ g with processes :=
              g.processes.erase (leastBusyOf s.procs w rest) ++
                [leastBusyOf s.procs w rest] }, ?_, by simp, ?_⟩
            · simp only [commonTail, selectLeastBusy]
              exact findGroup_updateGroup h hF _
            · simp [commonTail, selectLeastBusy, setProc_same]
        · cases hs : spawnOk with
          | true =>
            simp only [acqCore, hF, hgp, if_neg hidle, if_neg hsat, hs, if_true,
              AcqResult.state]
            refine ⟨WF_spawnInGroupState h hF hfresh now, ?_⟩
            intro id s' hsel
            rw [AcqResult.selected.injEq] at hsel
            obtain ⟨rfl, rfl⟩ := hsel
            refine ⟨{ g with processes := g.processes ++ [nid], size := g.size + 1 },
              ?_, by simp, ?_⟩
            · simp only [commonTail, spawnInGroup]
              exact findGroup_updateGroup h hF _
            · simp [commonTail, spawnInGroup, setProc_same]
          | false =>
            simp only [acqCore, hF, hgp, if_neg hidle, if_neg hsat, hs,
              Bool.false_eq_true, if_false, AcqResult.state]
            exact ⟨h, fun id s' hsel => by simp at hsel⟩
  | none =>
    by_cases hwait : s.max ≤ s.active
    · simp only [acqCore, hF, if_pos hwait, AcqResult.state]
      exact ⟨h, fun id s' hsel => by simp at hsel⟩
    · by_cases hc : s.count = s.max
      · have hlt : s.active < s.count := by omega
        obtain ⟨w, rest, hia⟩ := inactive_nonempty h hlt
        have hWFe : WF (evictLRU s) := WF_evictLRU h
        have hnone_e : findGroup (evictLRU s).groups opts.appRoot = none := by
          rw [evictLRU_spec h hia]
          exact findGroup_dropWorkers_none hF
        have hfresh_e : nid ∉ idsOf (evictLRU s).groups := by
          rw [evictLRU_spec h hia]
          exact not_mem_idsOf_dropWorkers hfresh
        cases hs : spawnOk with
        | true =>
          simp only [acqCore, hF, if_neg hwait, if_pos hc, hs, if_true, AcqResult.state]
          refine ⟨WF_spawnNewGroupState hWFe hnone_e hfresh_e now, ?_⟩
          intro id s' hsel
          rw [AcqResult.selected.injEq] at hsel
          obtain ⟨rfl, rfl⟩ := hsel
          refine ⟨{ processes := [nid], size := 1, maxRequests := opts.maxRequests },
            ?_, by simp, ?_⟩
          · simp only [commonTail, spawnNewGroup]
            exact findGroup_append_new hnone_e _
          · simp [commonTail, spawnNewGroup, setProc_same]
        | false =>
          simp only [acqCore, hF, if_neg hwait, if_pos hc, hs, Bool.false_eq_true,
            if_false, AcqResult.state]
          exact ⟨hWFe, fun id s' hsel => by simp at hsel⟩
      · cases hs : spawnOk with
        | true =>
          simp only [acqCore, hF, if_neg hwait, if_neg hc, hs, if_true, AcqResult.state]
          refine ⟨WF_spawnNewGroupState h hF hfresh now, ?_⟩
          intro id s' hsel
          rw [AcqResult.selected.injEq] at hsel
          obtain ⟨rfl, rfl⟩ := hsel
          refine ⟨{ processes := [nid], size := 1, maxRequests := opts.maxRequests },
            ?_, by simp, ?_⟩
          · simp only [commonTail, spawnNewGroup]
            exact findGroup_append_new hF _
          · simp [commonTail, spawnNewGroup, setProc_same]
        | false =>
          simp only [acqCore, hF, if_neg hwait, if_neg hc, hs, Bool.false_eq_true,
            if_false, AcqResult.state]
          exact ⟨h, fun id s' hsel => by simp at hsel⟩

/-! ### The reaper pass -/

theorem dropWorkers_congr {p q : WorkerId → Bool} (hpq : ∀ id, p id = q id)
    (gs : List (String × Group)) : dropWorkers p gs = dropWorkers q gs := by
  have hfun : p = q := funext hpq
  rw [hfun]

theorem dropWorkers_comp (p q : WorkerId → Bool) (gs : List (String × Group)) :
    dropWorkers p (dropWorkers q gs) = dropWorkers (fun id => q id || p id) gs := by
  induction gs with
  | nil => rfl
  | cons e gs ih =>
    have hfe : e.2.processes.filter (fun id => !(q id || p id))
        = (e.2.processes.filter fun id => !q id).filter fun id => !p id := by
      rw [List.filter_filter]
      refine List.filter_congr fun x hx => ?_
      cases hq : q x <;> cases hp : p x <;> simp [hq, hp]
    by_cases h1 : (e.2.processes.filter fun id => !q id) = []
    · rw [show dropWorkers q (e :: gs) = dropWorkers q gs from by
        rw [dropWorkers_cons, if_pos h1]]
      rw [ih]
      have h2 : e.2.processes.filter (fun id => !(q id || p id)) = [] := by
        rw [hfe, h1]
        rfl
      rw [dropWorkers_cons_of_filter h2, if_pos rfl]
    · rw [show dropWorkers q (e :: gs)
          = (e.1, { processes := e.2.processes.filter fun id => !q id,
                    size := (e.2.processes.filter fun id => !q id).length,
                    maxRequests := e.2.maxRequests }) :: dropWorkers q gs from by
        rw [dropWorkers_cons, if_neg h1]]
      rw [dropWorkers_cons]
      by_cases h2 : ((e.2.processes.filter fun id => !q id).filter fun id => !p id) = []
      · rw [if_pos h2, ih, dropWorkers_cons_of_filter (hfe.trans h2), if_pos rfl]
      · rw [if_neg h2, ih, dropWorkers_cons_of_filter hfe, if_neg h2]

theorem reapElig_eq_of {s t : PoolState} (now : Int) (hp : t.procs = s.procs)
    (hm : t.maxIdleTime = s.maxIdleTime) : reapElig t now = reapElig s now := by
  funext id
  simp [reapElig, hp, hm]

theorem reapOne_spec {s : PoolState} (h : WF s) (now : Int) {id : WorkerId}
    (hid : id ∈ s.inactiveApps) :
    reapOne now s id = if reapElig s now id
      then { s with groups := (dropWorkers (fun x => x == id) s.groups),
                    inactiveApps := s.inactiveApps.erase id, count := s.count - 1 }
      else s := by
  obtain ⟨hI, hidle⟩ := h.inactSub id hid
  obtain ⟨g, hfind, hmemg⟩ := WF_locate h hI
  have hne : g.processes ≠ [] :=
    h.groupsNonempty ((s.procs id).appRoot, g) (findGroup_mem hfind)
  cases hE : reapElig s now id with
  | true =>
    simp only [reapOne, hfind, hE, if_true]
    rw [remove_eq_dropWorkers h hfind hmemg]
  | false =>
    simp only [reapOne, hfind, hE, Bool.false_eq_true, if_false]
    rw [if_neg hne]

theorem WF_reapRemoved {s : PoolState} (h : WF s) {id : WorkerId}
    (hid : id ∈ s.inactiveApps) :
    WF { s with groups := (dropWorkers (fun x => x == id) s.groups),
                inactiveApps := s.inactiveApps.erase id, count := s.count - 1 } := by
  obtain ⟨hI, hidle⟩ := h.inactSub id hid
  refine WF_removeOne h hI rfl rfl ?_ ?_ ?_
  · rw [if_pos hidle]
  · rw [if_pos hidle]
  · intro x _
    rfl

theorem reapFold_spec (now : Int) :
    ∀ (todo : List WorkerId) (s : PoolState), WF s → todo.Nodup →
    (∀ id ∈ todo, id ∈ s.inactiveApps) →
    todo.foldl (reapOne now) s = { s with
      groups := (dropWorkers (fun id => decide (id ∈ todo) && reapElig s now id) s.groups),
      inactiveApps := s.inactiveApps.filter
        (fun id => !(decide (id ∈ todo) && reapElig s now id)),
      count := s.count - s.inactiveApps.countP
        (fun id => decide (id ∈ todo) && reapElig s now id) } := by
  intro todo
  induction todo with
  | nil =>
    intro s h _ _
    have hg : dropWorkers (fun id => decide (id ∈ ([] : List WorkerId)) && reapElig s now id)
        s.groups = s.groups := by
      refine dropWorkers_id (h.groupsNonempty) (h.sizesEq) ?_
      intro e he x hx
      simp
    have hi : s.inactiveApps.filter
        (fun id => !(decide (id ∈ ([] : List WorkerId)) && reapElig s now id))
        = s.inactiveApps :=
      List.filter_eq_self.2 fun x hx => by simp
    have hc : s.inactiveApps.countP
        (fun id => decide (id ∈ ([] : List WorkerId)) && reapElig s now id) = 0 :=
      List.countP_eq_zero.2 fun x hx => by simp
    rw [List.foldl_nil, hg, hi, hc, Nat.sub_zero]
  | cons t rest ih =>
    intro s h hnodup hsub
    have htmem : t ∈ s.inactiveApps := hsub t (List.mem_cons_self t rest)
    have htrest : t ∉ rest := (List.nodup_cons.1 hnodup).1
    have hrestnodup : rest.Nodup := (List.nodup_cons.1 hnodup).2
    rw [List.foldl_cons, reapOne_spec h now htmem]
    cases hE : reapElig s now t with
    | false =>
      rw [if_neg (by simp [hE])]
      rw [ih s h hrestnodup fun x hx => hsub x (List.mem_cons_of_mem _ hx)]
      have hpq : ∀ id, (decide (id ∈ rest) && reapElig s now id)
          = (decide (id ∈ t :: rest) && reapElig s now id) := by
        intro id
        by_cases hit : id = t
        · subst hit
          simp [hE, htrest]
        · simp [List.mem_cons, hit]
      rw [dropWorkers_congr hpq]
      have hfun : (fun id => !(decide (id ∈ rest) && reapElig s now id))
          = fun id => !(decide (id ∈ t :: rest) && reapElig s now id) := by
        funext id
        rw [hpq]
      rw [hfun]
      have hfun2 : (fun id => decide (id ∈ rest) && reapElig s now id)
          = fun id => decide (id ∈ t :: rest) && reapElig s now id :=
        funext hpq
      rw [hfun2]
    | true =>
      rw [if_pos (by simp [hE])]
      have hWF1 := WF_reapRemoved h htmem
      have hrestmem : ∀ x ∈ rest,
          x ∈ ({ s with
                 groups := (dropWorkers (fun x => x == t) s.groups),
                 inactiveApps := s.inactiveApps.erase t,
                 count := s.count - 1 } : PoolState).inactiveApps := by
        intro x hx
        have hxt : x ≠ t := fun heq => htrest (heq ▸ hx)
        exact (List.mem_erase_of_ne hxt).2 (hsub x (List.mem_cons_of_mem _ hx))
      rw [ih _ hWF1 hrestnodup hrestmem]
      have hproc : (({ s with
          groups := (dropWorkers (fun x => x == t) s.groups),
          inactiveApps := s.inactiveApps.erase t,
          count := s.count - 1 } : PoolState)).procs = s.procs := rfl
      rw [reapElig_eq_of now hproc rfl]
      dsimp only
      have hgroups : dropWorkers (fun id => decide (id ∈ rest) && reapElig s now id)
          (dropWorkers (fun x => x == t) s.groups)
          = dropWorkers (fun id => decide (id ∈ t :: rest) && reapElig s now id)
            s.groups := by
        rw [dropWorkers_comp]
        refine dropWorkers_congr ?_ _
        intro id
        by_cases hit : id = t
        · subst hit
          simp [hE]
        · simp [List.mem_cons, hit]
      have hinact : (s.inactiveApps.erase t).filter
          (fun id => !(decide (id ∈ rest) && reapElig s now id))
          = s.inactiveApps.filter
            (fun id => !(decide (id ∈ t :: rest) && reapElig s now id)) := by
        rw [erase_eq_filter_not_beq h.inactNodup t, List.filter_filter]
        refine List.filter_congr fun x hx => ?_
        by_cases hit : x = t
        · subst hit
          simp [hE]
        · simp [List.mem_cons, hit]
      have hcount : (s.inactiveApps.erase t).countP
          (fun id => decide (id ∈ rest) && reapElig s now id) + 1
          = s.inactiveApps.countP
            (fun id => decide (id ∈ t :: rest) && reapElig s now id) := by
        have hperm := List.perm_cons_erase htmem
        rw [(hperm.countP_eq (fun id => decide (id ∈ t :: rest) && reapElig s now id) :
          s.inactiveApps.countP _ = _)]
        rw [List.countP_cons]
        have ht1 : (decide (t ∈ t :: rest) && reapElig s now t) = true := by
          simp [hE]
        rw [ht1]
        simp only [if_pos rfl]
        congr 1
        refine List.countP_congr fun x hx => ?_
        have hxt : x ≠ t := (h.inactNodup.mem_erase_iff.1 hx).1
        simp [List.mem_cons, hxt]
      rw [hgroups, hinact]
      have hcnt2 : s.count - 1 - (s.inactiveApps.erase t).countP
          (fun id => decide (id ∈ rest) && reapElig s now id)
          = s.count - s.inactiveApps.countP
            (fun id => decide (id ∈ t :: rest) && reapElig s now id) := by
        omega
      rw [hcnt2]

theorem WF_purgeGroup {s : PoolState} (h : WF s) (a : String) : WF (purgeGroup s a) := by
  cases hF : findGroup s.groups a with
  | none =>
    simp only [purgeGroup, hF]
    exact h
  | some g =>
    rw [purgeGroup_spec h hF]
    refine WF_dropWorkersGen h (fun x => decide (x ∈ g.processes)) rfl ?_ ?_ rfl ?_
    · rw [countP_mem_idsOf h hF]
    · rw [filter_mem_idsOf h hF]
    · intro x _
      rfl

theorem WF_reapPass {s : PoolState} (h : WF s) (now : Int) : WF (reapPass now s) := by
  rw [reapPass, reapFold_spec now s.inactiveApps s h h.inactNodup (fun id hid => hid)]
  have hpermf : List.Perm
      (s.inactiveApps.filter
        (fun id => decide (id ∈ s.inactiveApps) && reapElig s now id))
      ((idsOf s.groups).filter
        (fun id => decide (id ∈ s.inactiveApps) && reapElig s now id)) := by
    refine (List.perm_ext_iff_of_nodup (h.inactNodup.filter _) (h.idsNodup.filter _)).2 ?_
    intro x
    rw [List.mem_filter, List.mem_filter]
    constructor
    · rintro ⟨hxi, hpx⟩
      exact ⟨(h.inactSub x hxi).1, hpx⟩
    · rintro ⟨hxI, hpx⟩
      have hx2 := hpx
      simp only [Bool.and_eq_true, decide_eq_true_eq] at hx2
      exact ⟨hx2.1, hpx⟩
  refine WF_dropWorkersGen h
    (fun id => decide (id ∈ s.inactiveApps) && reapElig s now id) rfl ?_ ?_ rfl ?_
  · dsimp only
    rw [List.countP_eq_length_filter, List.countP_eq_length_filter, hpermf.length_eq]
  · dsimp only
    have hz : busyCount s.procs ((idsOf s.groups).filter
        (fun id => decide (id ∈ s.inactiveApps) && reapElig s now id)) = 0 := by
      refine List.countP_eq_zero.2 fun x hx => ?_
      have hmemf := List.mem_filter.1 hx
      have hx2 := hmemf.2
      simp only [Bool.and_eq_true, decide_eq_true_eq] at hx2
      have hidle := (h.inactSub x hx2.1).2
      simp [hidle]
    rw [hz, Nat.sub_zero]
  · intro x _
    rfl

theorem WF_clearPool (s : PoolState) : WF (clearPool s) := by
  refine ⟨?_, ?_, ?_, ?_, ?_, ?_, ?_, ?_, ?_, ?_, ?_⟩ <;>
    simp [clearPool, idsOf, sumSizes, busyCount]

theorem not_mem_idsOf_purge {s : PoolState} (h : WF s) {nid : WorkerId} (a : String)
    (hfresh : nid ∉ idsOf s.groups) : nid ∉ idsOf (purgeGroup s a).groups := by
  cases hF : findGroup s.groups a with
  | none =>
    simp only [purgeGroup, hF]
    exact hfresh
  | some g =>
    rw [purgeGroup_spec h hF]
    exact not_mem_idsOf_dropWorkers hfresh

/-- Well-formedness of every outcome of `spawnOrUseExisting`, with the
selected-worker facts. -/
theorem spawnOrUseExisting_spec {s : PoolState} (h : WF s) (opts : PoolOptions)
    (needsR spawnOk : Bool) (msg : String) {nid : WorkerId}
    (hfresh : nid ∉ idsOf s.groups) (now : Int) :
    WF (spawnOrUseExisting s opts needsR spawnOk msg nid now).1.state ∧
    ∀ id s' rl,
      spawnOrUseExisting s opts needsR spawnOk msg nid now = (.selected id s', rl) →
      ∃ g', findGroup s'.groups opts.appRoot = some g' ∧ id ∈ g'.processes ∧
        (s'.procs id).sessions ≠ 0 := by
  cases needsR with
  | false =>
    simp only [spawnOrUseExisting, Bool.false_eq_true, if_false]
    obtain ⟨hWF, hfacts⟩ := acqCore_spec h opts spawnOk msg hfresh now
    refine ⟨hWF, ?_⟩
    intro id s' rl hsel
    rw [Prod.mk.injEq] at hsel
    exact hfacts id s' hsel.1
  | true =>
    simp only [spawnOrUseExisting, if_true]
    have hp := WF_purgeGroup h opts.appRoot
    have hf' := not_mem_idsOf_purge h opts.appRoot hfresh
    obtain ⟨hWF, hfacts⟩ := acqCore_spec hp opts spawnOk msg hf' now
    refine ⟨hWF, ?_⟩
    intro id s' rl hsel
    rw [Prod.mk.injEq] at hsel
    exact hfacts id s' hsel.1

/-- The invariants are preserved by every complete public operation. -/
theorem WF_step {s s' : PoolState} (h : WF s) (hst : Step s s') : WF s' := by
  cases hst with
  | acq opts nR sOk m nid now hfresh =>
    exact (spawnOrUseExisting_spec h opts nR sOk m hfresh now).1
  | connectFail opts nR sOk m nid now id t rl hfresh hsel =>
    obtain ⟨hWF, hfacts⟩ := spawnOrUseExisting_spec h opts nR sOk m hfresh now
    rw [hsel] at hWF
    obtain ⟨g', hfg, hmem, hbusy⟩ := hfacts id t rl hsel
    exact WF_connectFailCleanup hWF hfg hmem hbusy
  | close id now hbusy => exact WF_sessionClose h id now hbusy
  | reap now => exact WF_reapPass h now
  | clearOp => exact WF_clearPool s
  | setMaxOp m => exact WF_of_eq h rfl rfl rfl rfl rfl
  | setMaxPerAppOp m => exact WF_of_eq h rfl rfl rfl rfl rfl
  | setMaxIdleTimeOp t => exact WF_of_eq h rfl rfl rfl rfl rfl

theorem WF_initialState : WF initialState := by
  refine ⟨?_, ?_, ?_, ?_, ?_, ?_, ?_, ?_, ?_, ?_, ?_⟩ <;>
    simp [initialState, idsOf, sumSizes, busyCount]

theorem WF_reachable {s : PoolState} (h : Reachable s) : WF s := by
  induction h with
  | refl => exact WF_initialState
  | tail hr hstep ih => exact WF_step ih hstep

/-! ### Further helper lemmas for the claim theorems -/

/-- The least-busy scan returns the first occurrence of the minimum: everything
before it in the list is strictly busier, everything after it at least as busy. -/
theorem leastBusyOf_spec (procs : WorkerId → ProcessInfo) :
    ∀ (rest : List WorkerId) (w : WorkerId),
    ∃ l1 l2, w :: rest = l1 ++ leastBusyOf procs w rest :: l2 ∧
      (∀ x ∈ l1, (procs (leastBusyOf procs w rest)).sessions < (procs x).sessions) ∧
      ∀ x ∈ l2, (procs (leastBusyOf procs w rest)).sessions ≤ (procs x).sessions := by
  intro rest
  induction rest with
  | nil =>
    intro w
    exact ⟨[], [], by simp [leastBusyOf], by simp, by simp⟩
  | cons y rest ih =>
    intro w
    have hstep : leastBusyOf procs w (y :: rest)
        = leastBusyOf procs (if (procs y).sessions < (procs w).sessions then y else w)
            rest := by
      simp [leastBusyOf]
    by_cases hc : (procs y).sessions < (procs w).sessions
    · rw [hstep, if_pos hc]
      obtain ⟨l1, l2, hdec, hlt, hle⟩ := ih y
      cases l1 with
      | nil =>
        simp only [List.nil_append] at hdec
        rw [List.cons.injEq] at hdec
        obtain ⟨h1, h2⟩ := hdec
        refine ⟨[w], l2, ?_, ?_, hle⟩
        · rw [← h1, ← h2]
          rfl
        · intro x hx
          have hxw : x = w := by simpa using hx
          subst hxw
          rw [← h1]
          exact hc
      | cons a l1 =>
        rw [List.cons_append, List.cons.injEq] at hdec
        obtain ⟨ha, h2⟩ := hdec
        subst ha
        refine ⟨w :: y :: l1, l2, ?_, ?_, hle⟩
        · exact congrArg (fun t => w :: y :: t) h2
        · intro x hx
          rcases List.mem_cons.1 hx with rfl | hx'
          · exact lt_trans (hlt y (List.mem_cons_self y l1)) hc
          · exact hlt x hx'
    · rw [hstep, if_neg hc]
      obtain ⟨l1, l2, hdec, hlt, hle⟩ := ih w
      cases l1 with
      | nil =>
        simp only [List.nil_append] at hdec
        rw [List.cons.injEq] at hdec
        obtain ⟨h1, h2⟩ := hdec
        refine ⟨[], y :: l2, ?_, by simp, ?_⟩
        · rw [← h1, ← h2]
          rfl
        · intro x hx
          rcases List.mem_cons.1 hx with rfl | hx'
          · rw [← h1]
            omega
          · exact hle x hx'
      | cons a l1 =>
        rw [List.cons_append, List.cons.injEq] at hdec
        obtain ⟨ha, h2⟩ := hdec
        subst ha
        refine ⟨w :: y :: l1, l2, ?_, ?_, hle⟩
        · exact congrArg (fun t => w :: y :: t) h2
        · intro x hx
          rcases List.mem_cons.1 hx with rfl | hx'
          · exact hlt x (List.mem_cons_self x l1)
          · rcases List.mem_cons.1 hx' with rfl | hx''
            · have h3 := hlt w (List.mem_cons_self w l1)
              omega
            · exact hlt x (List.mem_cons_of_mem _ hx'')

theorem containsStr_mid (p q a m : String) : containsStr (p ++ a ++ q ++ m) a :=
  ⟨p, q ++ m, by rw [String.append_assoc]⟩

theorem containsStr_last (p m : String) : containsStr (p ++ m) m :=
  ⟨p, "", by simp⟩

/-- Any `spawnError` outcome of the decision tree carries the wrapped message and
the state as mutated by the pre-spawn steps (here: possibly the LRU eviction). -/
theorem acqCore_spawnError (s : PoolState) (opts : PoolOptions) (msg : String)
    (nid : WorkerId) (now : Int) (m : String) (sE : PoolState)
    (hE : acqCore s opts false msg nid now = .spawnError m sE) :
    m = wrapSpawnMsg opts.appRoot msg ∧
    sE = (if findGroup s.groups opts.appRoot = none ∧ ¬s.max ≤ s.active ∧
            s.count = s.max
          then evictLRU s else s) := by
  cases hF : findGroup s.groups opts.appRoot with
  | some g =>
    rw [if_neg (show ¬((some g : Option Group) = none ∧ ¬s.max ≤ s.active ∧
        s.count = s.max) by simp)]
    cases hgp : g.processes with
    | nil =>
      simp only [acqCore, hF, hgp] at hE
      exact AcqResult.noConfusion hE
    | cons w rest =>
      by_cases hidle : (s.procs w).sessions = 0
      · simp only [acqCore, hF, hgp, if_pos hidle] at hE
        exact AcqResult.noConfusion hE
      · by_cases hsat : s.max ≤ s.count ∨ (s.maxPerApp ≠ 0 ∧ s.maxPerApp ≤ g.size)
        · cases hq : opts.useGlobalQueue with
          | true =>
            simp only [acqCore, hF, hgp, if_neg hidle, if_pos hsat, hq, if_true] at hE
            exact AcqResult.noConfusion hE
          | false =>
            simp only [acqCore, hF, hgp, if_neg hidle, if_pos hsat, hq,
              Bool.false_eq_true, if_false] at hE
            exact AcqResult.noConfusion hE
        · simp only [acqCore, hF, hgp, if_neg hidle, if_neg hsat, Bool.false_eq_true,
            if_false] at hE
          rw [AcqResult.spawnError.injEq] at hE
          exact ⟨hE.1.symm, hE.2.symm⟩
  | none =>
    by_cases hwait : s.max ≤ s.active
    · simp only [acqCore, hF, if_pos hwait] at hE
      exact AcqResult.noConfusion hE
    · by_cases hcmax : s.count = s.max
      · rw [if_pos (show (none : Option Group) = none ∧ ¬s.max ≤ s.active ∧
            s.count = s.max from ⟨rfl, hwait, hcmax⟩)]
        simp only [acqCore, hF, if_neg hwait, if_pos hcmax, Bool.false_eq_true,
          if_false] at hE
        rw [AcqResult.spawnError.injEq] at hE
        exact ⟨hE.1.symm, hE.2.symm⟩
      · rw [if_neg (show ¬((none : Option Group) = none ∧ ¬s.max ≤ s.active ∧
            s.count = s.max) from fun hcon => hcmax hcon.2.2)]
        simp only [acqCore, hF, if_neg hwait, if_neg hcmax, Bool.false_eq_true,
          if_false] at hE
        rw [AcqResult.spawnError.injEq] at hE
        exact ⟨hE.1.symm, hE.2.symm⟩

/-- The connect-failure catch block as a single record update. -/
theorem connectFailCleanup_spec {s' : PoolState} (hWF : WF s') {aR : String}
    {g : Group} (hf : findGroup s'.groups aR = some g) {id : WorkerId}
    (hmem : id ∈ g.processes) :
    connectFailCleanup s' aR id = { s' with
      procs := (setProc s'.procs id
        { s'.procs id with sessions := (s'.procs id).sessions - 1 }),
      groups := (dropWorkers (fun x => x == id) s'.groups),
      count := s'.count - 1, active := s'.active - 1,
      cvSignals := s'.cvSignals + 1 } := by
  simp only [connectFailCleanup]
  rw [hf]
  dsimp only
  rw [remove_eq_dropWorkers hWF hf hmem]

theorem stateA_WF : WF stateA := by
  refine ⟨?_, ?_, ?_, ?_, ?_, ?_, ?_, ?_, ?_, ?_, ?_⟩ <;> decide

theorem stateB_WF : WF stateB := by
  refine ⟨?_, ?_, ?_, ?_, ?_, ?_, ?_, ?_, ?_, ?_, ?_⟩ <;> decide

theorem stateC_WF : WF stateC := by
  refine ⟨?_, ?_, ?_, ?_, ?_, ?_, ?_, ?_, ?_, ?_, ?_⟩ <;> decide

theorem stateD_WF : WF stateD := by
  refine ⟨?_, ?_, ?_, ?_, ?_, ?_, ?_, ?_, ?_, ?_, ?_⟩ <;> decide

theorem stateE_WF : WF stateE := by
  refine ⟨?_, ?_, ?_, ?_, ?_, ?_, ?_, ?_, ?_, ?_, ?_⟩ <;> decide

/-! ### The claims -/

/-- C1: after every complete public operation on the pool (an acquisition pass of
`get`, a connect-failure cleanup, a session close callback, a reaper pass, `clear`
and the setters), the shared state satisfies the `verifyState` invariants: `count`
equals the sum of `size` over all groups; `active ≤ count` and the inactive list
has length `count - active`; every group's worker list is nonempty and
idle-before-busy ordered; and a worker of the pool is in the inactive list iff its
`sessions` is `0`. -/
theorem C1_pool_invariants (s : PoolState) (h : Reachable s) :
    s.count = sumSizes s.groups ∧
    s.active ≤ s.count ∧
    s.inactiveApps.length = s.count - s.active ∧
    (∀ e ∈ s.groups, e.2.processes ≠ []) ∧
    (∀ e ∈ s.groups, e.2.processes.Pairwise
      (fun x y => (s.procs x).sessions ≠ 0 → (s.procs y).sessions ≠ 0)) ∧
    ∀ e ∈ s.groups, ∀ id ∈ e.2.processes,
      ((s.procs id).sessions = 0 ↔ id ∈ s.inactiveApps) := by
  have hWF := WF_reachable h
  obtain ⟨hle, hlen⟩ := WF_inactive_length hWF
  refine ⟨hWF.countEq, hle, hlen, hWF.groupsNonempty, hWF.ordered, ?_⟩
  intro e he id hid
  exact ⟨hWF.idleInact e he id hid, fun hmem => (hWF.inactSub id hmem).2⟩

/-- The invariants hold at the pool reached by one acquisition on the fresh pool. -/
theorem C1_pool_invariants_witness :
    exampleAcqState.count = sumSizes exampleAcqState.groups ∧
    exampleAcqState.active ≤ exampleAcqState.count ∧
    exampleAcqState.inactiveApps.length
      = exampleAcqState.count - exampleAcqState.active ∧
    (∀ e ∈ exampleAcqState.groups, e.2.processes ≠ []) ∧
    (∀ e ∈ exampleAcqState.groups, e.2.processes.Pairwise
      (fun x y => (exampleAcqState.procs x).sessions ≠ 0 →
        (exampleAcqState.procs y).sessions ≠ 0)) ∧
    ∀ e ∈ exampleAcqState.groups, ∀ id ∈ e.2.processes,
      ((exampleAcqState.procs id).sessions = 0 ↔ id ∈ exampleAcqState.inactiveApps) :=
  C1_pool_invariants exampleAcqState
    (Relation.ReflTransGen.tail Relation.ReflTransGen.refl
      (Step.acq initialState optsA false true "" 0 0 (by decide)))

/-- C2 (amended): when the spawn service fails during an acquisition attempt, the
error is re-raised as a `SpawnException` whose message names the `appRoot` and the
underlying cause, and the pool is left in the state produced by the pre-spawn
mutations of that attempt — the restart purge and, in the no-group branch at
capacity, the LRU eviction (`preSpawnState`) — rather than, as originally claimed,
always in the state at the start of the attempt. -/
theorem C2_spawn_failure_state (s : PoolState) (opts : PoolOptions) (needsR : Bool)
    (spawnMsg : String) (nid : WorkerId) (now : Int) (m : String) (sE : PoolState)
    (hE : (spawnOrUseExisting s opts needsR false spawnMsg nid now).1
        = .spawnError m sE) :
    containsStr m opts.appRoot ∧ containsStr m spawnMsg ∧
    m = wrapSpawnMsg opts.appRoot spawnMsg ∧
    sE = preSpawnState s opts needsR := by
  cases needsR with
  | false =>
    simp only [spawnOrUseExisting, Bool.false_eq_true, if_false] at hE
    obtain ⟨hm, hs⟩ := acqCore_spawnError s opts spawnMsg nid now m sE hE
    subst hm
    refine ⟨containsStr_mid "Cannot spawn application '" "': " opts.appRoot spawnMsg,
      containsStr_last ("Cannot spawn application '" ++ opts.appRoot ++ "': ")
        spawnMsg, rfl, ?_⟩
    rw [hs]
    simp only [preSpawnState, Bool.false_eq_true, if_false]
  | true =>
    simp only [spawnOrUseExisting, if_true] at hE
    obtain ⟨hm, hs⟩ :=
      acqCore_spawnError (purgeGroup s opts.appRoot) opts spawnMsg nid now m sE hE
    subst hm
    refine ⟨containsStr_mid "Cannot spawn application '" "': " opts.appRoot spawnMsg,
      containsStr_last ("Cannot spawn application '" ++ opts.appRoot ++ "': ")
        spawnMsg, rfl, ?_⟩
    rw [hs]
    simp only [preSpawnState, if_true]

/-- C2 as frozen is false: with one idle worker of `"a"` filling the pool
(`count = max = 1`), a `get` for `"b"` whose spawn fails evicts that worker before
calling the spawn service, and the failed attempt leaves the pool mutated (the
group map emptied, `count` decremented) instead of in the state at the start of
the attempt. -/
theorem C2_spawn_failure_counterexample :
    ∃ m sE, (spawnOrUseExisting stateA optsB false false "disk full" 5 7).1
        = AcqResult.spawnError m sE ∧ sE.groups ≠ stateA.groups ∧
        sE.count ≠ stateA.count := by
  refine ⟨wrapSpawnMsg "b" "disk full", evictLRU stateA, rfl, ?_, ?_⟩ <;> decide

/-- Instance of the amended C2 theorem at the counterexample input. -/
theorem C2_spawn_failure_state_witness :
    containsStr (wrapSpawnMsg "b" "disk full") "b" ∧
    containsStr (wrapSpawnMsg "b" "disk full") "disk full" ∧
    wrapSpawnMsg "b" "disk full" = wrapSpawnMsg optsB.appRoot "disk full" ∧
    evictLRU stateA = preSpawnState stateA optsB false :=
  C2_spawn_failure_state stateA optsB false "disk full" 5 7
    (wrapSpawnMsg "b" "disk full") (evictLRU stateA) rfl

/-- C3: a `get` for an `appRoot` with no group, with `active < max` and
`count = max`, evicts exactly the front worker of the inactive list — a globally
least-recently-used idle worker: it disappears from the inactive list and from its
own group (the group entry dropped when it empties, its size recomputed otherwise,
which is what `dropWorkers` does), `count` drops by one, and only then is the new
worker spawned for the requested `appRoot`. -/
theorem C3_lru_eviction (s : PoolState) (hWF : WF s) (opts : PoolOptions)
    (spawnMsg : String) (nid : WorkerId) (now : Int)
    (hno : findGroup s.groups opts.appRoot = none)
    (hactive : s.active < s.max) (hcount : s.count = s.max) :
    ∃ w rest, s.inactiveApps = w :: rest ∧
      (s.procs w).sessions = 0 ∧
      evictLRU s = { s with groups := (dropWorkers (fun x => x == w) s.groups),
                            inactiveApps := rest, count := s.count - 1 } ∧
      w ∉ idsOf (evictLRU s).groups ∧
      (spawnOrUseExisting s opts false true spawnMsg nid now).1
        = .selected nid (commonTail (spawnNewGroup (evictLRU s) opts nid now)
            nid now) := by
  have hlt : s.active < s.count := by omega
  obtain ⟨w, rest, hia⟩ := inactive_nonempty hWF hlt
  have hmemw : w ∈ s.inactiveApps := by rw [hia]; simp
  refine ⟨w, rest, hia, (hWF.inactSub w hmemw).2, evictLRU_spec hWF hia, ?_, ?_⟩
  · rw [evictLRU_spec hWF hia]
    dsimp only
    rw [idsOf_dropWorkers]
    intro hm2
    have hx := (List.mem_filter.1 hm2).2
    simp at hx
  · simp only [spawnOrUseExisting, Bool.false_eq_true, if_false, acqCore, hno,
      if_neg (show ¬s.max ≤ s.active by omega), if_pos hcount, if_true]

/-- Instance of C3 on the one-idle-worker pool at capacity. -/
theorem C3_lru_eviction_witness :
    ∃ w rest, stateA.inactiveApps = w :: rest ∧
      (stateA.procs w).sessions = 0 ∧
      evictLRU stateA = { stateA with
        groups := (dropWorkers (fun x => x == w) stateA.groups),
        inactiveApps := rest, count := stateA.count - 1 } ∧
      w ∉ idsOf (evictLRU stateA).groups ∧
      (spawnOrUseExisting stateA optsB false true "m" 9 3).1
        = .selected 9 (commonTail (spawnNewGroup (evictLRU stateA) optsB 9 3) 9 3) :=
  C3_lru_eviction stateA stateA_WF optsB "m" 9 3 (by decide) (by decide) (by decide)

/-- C4: with `useGlobalQueue = false`, when the group exists, its front worker is
busy and the pool or the group is saturated (`count >= max`, or `maxPerApp != 0`
and the group's size at least `maxPerApp`), the selected worker is the one with
the smallest `sessions` — ties going to the first occurrence in list order — it is
moved to the back of the group's list, and the common selection tail sets its
`lastUsed` to `now` and increments its `sessions` by one. -/
theorem C4_least_busy_selection (s : PoolState) (hWF : WF s) (opts : PoolOptions)
    (spawnOk : Bool) (spawnMsg : String) (nid : WorkerId) (now : Int) (g : Group)
    (hF : findGroup s.groups opts.appRoot = some g) (w : WorkerId)
    (rest : List WorkerId) (hgp : g.processes = w :: rest)
    (hbusy : (s.procs w).sessions ≠ 0)
    (hsat : s.max ≤ s.count ∨ (s.maxPerApp ≠ 0 ∧ s.maxPerApp ≤ g.size))
    (hq : opts.useGlobalQueue = false) :
    ∃ sm,
      (spawnOrUseExisting s opts false spawnOk spawnMsg nid now).1
        = .selected sm (commonTail (selectLeastBusy s opts.appRoot g sm) sm now) ∧
      (∃ l1 l2, g.processes = l1 ++ sm :: l2 ∧
        (∀ x ∈ l1, (s.procs sm).sessions < (s.procs x).sessions) ∧
        ∀ x ∈ l2, (s.procs sm).sessions ≤ (s.procs x).sessions) ∧
      findGroup (commonTail (selectLeastBusy s opts.appRoot g sm) sm now).groups
          opts.appRoot
        = some { g with processes := g.processes.erase sm ++ [sm] } ∧
      ((commonTail (selectLeastBusy s opts.appRoot g sm) sm now).procs sm).lastUsed
        = now ∧
      ((commonTail (selectLeastBusy s opts.appRoot g sm) sm now).procs sm).sessions
        = (s.procs sm).sessions + 1 := by
  refine ⟨leastBusyOf s.procs w rest, ?_, ?_, ?_, ?_, ?_⟩
  · simp only [spawnOrUseExisting, Bool.false_eq_true, if_false, acqCore, hF, hgp,
      if_neg hbusy, if_pos hsat, hq]
  · obtain ⟨l1, l2, hdec, hlt2, hle2⟩ := leastBusyOf_spec s.procs rest w
    exact ⟨l1, l2, by rw [hgp]; exact hdec, hlt2, hle2⟩
  · simp only [commonTail, selectLeastBusy]
    exact findGroup_updateGroup hWF hF _
  · simp [commonTail, selectLeastBusy, setProc_same]
  · simp [commonTail, selectLeastBusy, setProc_same]

/-- Instance of C4 on the saturated two-busy-worker pool: worker `2` (one session)
is selected over the front worker `1` (two sessions). -/
theorem C4_least_busy_selection_witness :
    ∃ sm,
      (spawnOrUseExisting stateB optsA false true "m" 9 3).1
        = .selected sm (commonTail (selectLeastBusy stateB optsA.appRoot groupB sm)
            sm 3) ∧
      (∃ l1 l2, groupB.processes = l1 ++ sm :: l2 ∧
        (∀ x ∈ l1, (stateB.procs sm).sessions < (stateB.procs x).sessions) ∧
        ∀ x ∈ l2, (stateB.procs sm).sessions ≤ (stateB.procs x).sessions) ∧
      findGroup (commonTail (selectLeastBusy stateB optsA.appRoot groupB sm)
          sm 3).groups optsA.appRoot
        = some { groupB with processes := groupB.processes.erase sm ++ [sm] } ∧
      ((commonTail (selectLeastBusy stateB optsA.appRoot groupB sm)
          sm 3).procs sm).lastUsed = 3 ∧
      ((commonTail (selectLeastBusy stateB optsA.appRoot groupB sm)
          sm 3).procs sm).sessions = (stateB.procs sm).sessions + 1 :=
  C4_least_busy_selection stateB stateB_WF optsA true "m" 9 3 groupB (by decide)
    1 [2] (by decide) (by decide) (by decide) (by decide)

/-- C5: when the restart detector fires for an `appRoot` whose group exists, the
whole group is purged before the decision tree runs: the group's workers all leave
the inactive list, `active` drops by the number of busy workers of the group,
`count` by the number of its workers, the group entry disappears from the map,
`activeOrMaxChanged` is signalled, and the spawn service's `reload` is called
exactly once with that `appRoot`. -/
theorem C5_restart_purge (s : PoolState) (hWF : WF s) (opts : PoolOptions)
    (spawnOk : Bool) (spawnMsg : String) (nid : WorkerId) (now : Int) (g : Group)
    (hF : findGroup s.groups opts.appRoot = some g) :
    (spawnOrUseExisting s opts true spawnOk spawnMsg nid now).2 = [opts.appRoot] ∧
    purgeGroup s opts.appRoot = { s with
      groups := (dropWorkers (fun x => decide (x ∈ g.processes)) s.groups),
      inactiveApps := s.inactiveApps.filter (fun x => !decide (x ∈ g.processes)),
      active := s.active - busyCount s.procs g.processes,
      count := s.count - g.processes.length,
      cvSignals := s.cvSignals + 1 } ∧
    findGroup (purgeGroup s opts.appRoot).groups opts.appRoot = none ∧
    (∀ id ∈ g.processes, id ∉ idsOf (purgeGroup s opts.appRoot).groups) ∧
    (spawnOrUseExisting s opts true spawnOk spawnMsg nid now).1
      = acqCore (purgeGroup s opts.appRoot) opts spawnOk spawnMsg nid now := by
  refine ⟨by simp [spawnOrUseExisting], purgeGroup_spec hWF hF, ?_, ?_,
    by simp [spawnOrUseExisting]⟩
  · rw [purgeGroup_spec hWF hF]
    dsimp only
    rw [findGroup_eq_none]
    intro e he
    obtain ⟨e0, he0, hne, rfl⟩ := mem_dropWorkers.1 he
    obtain ⟨pre, post, hdec, hpre, hpost⟩ := WF_findGroup_decomp hWF hF
    rw [hdec] at he0
    rcases List.mem_append.1 he0 with hh | hh
    · exact hpre e0 hh
    · rcases List.mem_cons.1 hh with rfl | hh'
      · refine absurd ?_ hne
        exact List.filter_eq_nil_iff.2 fun x hx => by simpa using hx
      · exact hpost e0 hh'
  · intro id hid
    rw [purgeGroup_spec hWF hF]
    dsimp only
    rw [idsOf_dropWorkers]
    intro hmem
    have hx := (List.mem_filter.1 hmem).2
    simp [hid] at hx

/-- Instance of C5 on the pool with a two-worker group (one idle, one busy). -/
theorem C5_restart_purge_witness :
    (spawnOrUseExisting stateC optsA true true "m" 9 3).2 = [optsA.appRoot] ∧
    purgeGroup stateC optsA.appRoot = { stateC with
      groups := (dropWorkers (fun x => decide (x ∈ ([3, 4] : List WorkerId)))
        stateC.groups),
      inactiveApps := stateC.inactiveApps.filter
        (fun x => !decide (x ∈ ([3, 4] : List WorkerId))),
      active := stateC.active - busyCount stateC.procs [3, 4],
      count := stateC.count - ([3, 4] : List WorkerId).length,
      cvSignals := stateC.cvSignals + 1 } ∧
    findGroup (purgeGroup stateC optsA.appRoot).groups optsA.appRoot = none ∧
    (∀ id ∈ ([3, 4] : List WorkerId),
      id ∉ idsOf (purgeGroup stateC optsA.appRoot).groups) ∧
    (spawnOrUseExisting stateC optsA true true "m" 9 3).1
      = acqCore (purgeGroup stateC optsA.appRoot) optsA true "m" 9 3 :=
  C5_restart_purge stateC stateC_WF optsA true "m" 9 3
    { processes := [3, 4], size := 2, maxRequests := 0 } (by decide)

/-- C6: a session close callback for a worker still held by its group increments
the worker's `processed` counter; when the group has `maxRequests > 0` and this
increment makes `processed` reach `maxRequests`, the worker is retired: it leaves
the group's list (the entry being erased if the group empties, the size
recomputed otherwise, as `dropWorkers` does), `count` and `active` drop by one and
`activeOrMaxChanged` is signalled; before that point the worker stays pooled. -/
theorem C6_max_requests_retirement (s : PoolState) (hWF : WF s) (id : WorkerId)
    (now : Int) (g : Group) (hF : findGroup s.groups ((s.procs id).appRoot) = some g)
    (hmem : id ∈ g.processes) (hmax : 0 < g.maxRequests) :
    ((sessionClose s id now).procs id).processed = (s.procs id).processed + 1 ∧
    (g.maxRequests ≤ (s.procs id).processed + 1 →
      (sessionClose s id now).groups = dropWorkers (fun x => x == id) s.groups ∧
      id ∉ idsOf (sessionClose s id now).groups ∧
      (sessionClose s id now).count = s.count - 1 ∧
      (sessionClose s id now).active = s.active - 1 ∧
      (sessionClose s id now).cvSignals = s.cvSignals + 1) ∧
    ((s.procs id).processed + 1 < g.maxRequests →
      id ∈ idsOf (sessionClose s id now).groups) := by
  simp only [sessionClose, hF, if_pos hmem]
  by_cases hret : g.maxRequests ≤ (s.procs id).processed + 1
  · rw [if_pos ⟨hmax, hret⟩, remove_eq_dropWorkers hWF hF hmem]
    refine ⟨by simp [setProc_same], fun _ => ⟨rfl, ?_, rfl, rfl, rfl⟩,
      fun hlt => absurd hret (by omega)⟩
    dsimp only
    rw [idsOf_dropWorkers]
    intro hmem2
    have hx := (List.mem_filter.1 hmem2).2
    simp at hx
  · rw [if_neg fun hcon => hret hcon.2]
    by_cases hz : (s.procs id).sessions - 1 = 0
    · rw [if_pos hz]
      refine ⟨by simp [setProc_same], fun hge => absurd hge hret, fun _ => ?_⟩
      dsimp only
      obtain ⟨pre, post, hdec, hpre, hpost⟩ := WF_findGroup_decomp hWF hF
      rw [hdec, updateGroup_decomp hpre _ post g, idsOf_append, idsOf_cons]
      simp
    · rw [if_neg hz]
      refine ⟨by simp [setProc_same], fun hge => absurd hge hret, fun _ => ?_⟩
      dsimp only
      exact mem_idsOf.2 ⟨((s.procs id).appRoot, g), findGroup_mem hF, hmem⟩

/-- Instance of C6: on the `maxRequests = 1` group, the first close callback
retires worker `5`. -/
theorem C6_max_requests_retirement_witness :
    ((sessionClose stateD 5 3).procs 5).processed = (stateD.procs 5).processed + 1 ∧
    (({ processes := [5], size := 1, maxRequests := 1 } : Group).maxRequests ≤
        (stateD.procs 5).processed + 1 →
      (sessionClose stateD 5 3).groups = dropWorkers (fun x => x == 5) stateD.groups ∧
      5 ∉ idsOf (sessionClose stateD 5 3).groups ∧
      (sessionClose stateD 5 3).count = stateD.count - 1 ∧
      (sessionClose stateD 5 3).active = stateD.active - 1 ∧
      (sessionClose stateD 5 3).cvSignals = stateD.cvSignals + 1) ∧
    ((stateD.procs 5).processed + 1 <
        ({ processes := [5], size := 1, maxRequests := 1 } : Group).maxRequests →
      5 ∈ idsOf (sessionClose stateD 5 3).groups) :=
  C6_max_requests_retirement stateD stateD_WF 5 3
    { processes := [5], size := 1, maxRequests := 1 } (by decide) (by decide)
    (by decide)

/-- C7: when `connect` fails on the selected worker of an acquisition, `get`
decrements the worker's `sessions`, removes it from its group (erasing the entry
when the group empties), decrements `count` and `active`, signals
`activeOrMaxChanged`, and — unless this was attempt number
`MAX_GET_ATTEMPTS = 10` — retries the acquisition from the cleaned-up state; on
attempt 10 it instead raises an `IOError` whose message contains the `appRoot` and
the underlying cause. -/
theorem C7_connect_failure_retry (s0 s' : PoolState) (hWF : WF s')
    (opts : PoolOptions) (g : Group) (hf : findGroup s'.groups opts.appRoot = some g)
    (id : WorkerId) (hmem : id ∈ g.processes)
    (needsR spawnOk connectOk : Nat → Bool) (spawnMsg connectMsg : Nat → String)
    (nid : Nat → WorkerId) (nowF : Nat → Int) (fuel attempt0 : Nat)
    (rl : List String)
    (hsel : spawnOrUseExisting s0 opts (needsR (attempt0 + 1)) (spawnOk (attempt0 + 1))
        (spawnMsg (attempt0 + 1)) (nid (attempt0 + 1)) (nowF (attempt0 + 1))
        = (.selected id s', rl))
    (hcfail : connectOk (attempt0 + 1) = false) :
    MAX_GET_ATTEMPTS = 10 ∧
    ((connectFailCleanup s' opts.appRoot id).procs id).sessions
      = (s'.procs id).sessions - 1 ∧
    (connectFailCleanup s' opts.appRoot id).groups
      = dropWorkers (fun x => x == id) s'.groups ∧
    id ∉ idsOf (connectFailCleanup s' opts.appRoot id).groups ∧
    (connectFailCleanup s' opts.appRoot id).count = s'.count - 1 ∧
    (connectFailCleanup s' opts.appRoot id).active = s'.active - 1 ∧
    (connectFailCleanup s' opts.appRoot id).cvSignals = s'.cvSignals + 1 ∧
    (attempt0 + 1 ≠ MAX_GET_ATTEMPTS →
      getAttempts opts needsR spawnOk connectOk spawnMsg connectMsg nid nowF
          (fuel + 1) attempt0 s0
        = getAttempts opts needsR spawnOk connectOk spawnMsg connectMsg nid nowF
            fuel (attempt0 + 1) (connectFailCleanup s' opts.appRoot id)) ∧
    (attempt0 + 1 = MAX_GET_ATTEMPTS →
      getAttempts opts needsR spawnOk connectOk spawnMsg connectMsg nid nowF
          (fuel + 1) attempt0 s0
        = .ioError (connectFailMsg opts.appRoot (connectMsg (attempt0 + 1)))
            (connectFailCleanup s' opts.appRoot id) ∧
      containsStr (connectFailMsg opts.appRoot (connectMsg (attempt0 + 1)))
        opts.appRoot ∧
      containsStr (connectFailMsg opts.appRoot (connectMsg (attempt0 + 1)))
        (connectMsg (attempt0 + 1))) := by
  have hclean := connectFailCleanup_spec hWF hf hmem
  refine ⟨rfl, ?_, ?_, ?_, ?_, ?_, ?_, ?_, ?_⟩
  · rw [hclean]
    simp [setProc_same]
  · rw [hclean]
  · rw [hclean]
    dsimp only
    rw [idsOf_dropWorkers]
    intro hmem2
    have hx := (List.mem_filter.1 hmem2).2
    simp at hx
  · rw [hclean]
  · rw [hclean]
  · rw [hclean]
  · intro hne
    simp only [getAttempts, hsel, hcfail, Bool.false_eq_true, if_false, if_neg hne]
  · intro heq
    refine ⟨?_,
      containsStr_mid "Cannot connect to an existing application instance for '"
        "': " opts.appRoot (connectMsg (attempt0 + 1)),
      containsStr_last ("Cannot connect to an existing application instance for '"
        ++ opts.appRoot ++ "': ") (connectMsg (attempt0 + 1))⟩
    simp only [getAttempts, hsel, hcfail, Bool.false_eq_true, if_false, if_pos heq]

/-- Instance of C7: the fresh pool serves `"a"`, `connect` fails on attempt 10,
and `get` raises the wrapped `IOError` from the cleaned-up pool. -/
theorem C7_connect_failure_retry_witness :
    MAX_GET_ATTEMPTS = 10 ∧
    ((connectFailCleanup exampleAcqState optsA.appRoot 0).procs 0).sessions
      = (exampleAcqState.procs 0).sessions - 1 ∧
    (connectFailCleanup exampleAcqState optsA.appRoot 0).groups
      = dropWorkers (fun x => x == 0) exampleAcqState.groups ∧
    0 ∉ idsOf (connectFailCleanup exampleAcqState optsA.appRoot 0).groups ∧
    (connectFailCleanup exampleAcqState optsA.appRoot 0).count
      = exampleAcqState.count - 1 ∧
    (connectFailCleanup exampleAcqState optsA.appRoot 0).active
      = exampleAcqState.active - 1 ∧
    (connectFailCleanup exampleAcqState optsA.appRoot 0).cvSignals
      = exampleAcqState.cvSignals + 1 ∧
    (9 + 1 ≠ MAX_GET_ATTEMPTS →
      getAttempts optsA (fun _ => false) (fun _ => true) (fun _ => false)
          (fun _ => "") (fun _ => "refused") (fun _ => 0) (fun _ => 0) 1 9
          initialState
        = getAttempts optsA (fun _ => false) (fun _ => true) (fun _ => false)
            (fun _ => "") (fun _ => "refused") (fun _ => 0) (fun _ => 0) 0 (9 + 1)
            (connectFailCleanup exampleAcqState optsA.appRoot 0)) ∧
    (9 + 1 = MAX_GET_ATTEMPTS →
      getAttempts optsA (fun _ => false) (fun _ => true) (fun _ => false)
          (fun _ => "") (fun _ => "refused") (fun _ => 0) (fun _ => 0) 1 9
          initialState
        = .ioError (connectFailMsg optsA.appRoot "refused")
            (connectFailCleanup exampleAcqState optsA.appRoot 0) ∧
      containsStr (connectFailMsg optsA.appRoot "refused") optsA.appRoot ∧
      containsStr (connectFailMsg optsA.appRoot "refused") "refused") :=
  C7_connect_failure_retry initialState exampleAcqState (by
      refine ⟨?_, ?_, ?_, ?_, ?_, ?_, ?_, ?_, ?_, ?_, ?_⟩ <;> decide)
    optsA { processes := [0], size := 1, maxRequests := 0 } (by decide) 0
    (by decide) (fun _ => false) (fun _ => true) (fun _ => false) (fun _ => "")
    (fun _ => "refused") (fun _ => 0) (fun _ => 0) 0 9 [] rfl rfl

/-- C8: the restart detector computes the restart directory as `appRoot ++ "/tmp"`
when `restartDir` is empty, as `restartDir` itself when it starts with `'/'`, and
as `appRoot ++ "/" ++ restartDir` otherwise; it reports a restart exactly when the
throttled `stat` of `always_restart.txt` in that directory succeeds or the change
checker reports `restart.txt` in that directory as changed. -/
theorem C8_restart_detector (statSucceeds changed : String → Bool) (appRoot : String)
    (opts : PoolOptions) :
    (opts.restartDir = "" → restartDirOf appRoot opts.restartDir = appRoot ++ "/tmp") ∧
    (opts.restartDir.data.head? = some '/' →
      restartDirOf appRoot opts.restartDir = opts.restartDir) ∧
    (opts.restartDir ≠ "" → opts.restartDir.data.head? ≠ some '/' →
      restartDirOf appRoot opts.restartDir = appRoot ++ "/" ++ opts.restartDir) ∧
    (needsRestartCheck statSucceeds changed appRoot opts = true ↔
      (statSucceeds (restartDirOf appRoot opts.restartDir ++ "/always_restart.txt")
          = true ∨
       changed (restartDirOf appRoot opts.restartDir ++ "/restart.txt") = true)) := by
  refine ⟨?_, ?_, ?_, ?_⟩
  · intro h
    simp [restartDirOf, h]
  · intro h
    have hne : ¬opts.restartDir = "" := by
      intro he
      rw [he] at h
      exact absurd h (by decide)
    simp [restartDirOf, hne, h]
  · intro h1 h2
    simp [restartDirOf, h1, h2]
  · simp [needsRestartCheck, Bool.or_eq_true]

/-- Instance of C8 on a relative `restartDir`. -/
theorem C8_restart_detector_witness :
    restartDirOf "/app" "tmp2" = "/app" ++ "/" ++ "tmp2" :=
  (C8_restart_detector (fun _ => false) (fun _ => true) "/app"
      { appRoot := "/app", restartDir := "tmp2", statThrottleRate := 0,
        useGlobalQueue := false, maxRequests := 0 }).2.2.1 (by decide) (by decide)

/-- C9: one timeout pass of the reaper retires exactly the inactive workers with
`maxIdleTime > 0` and `now - lastUsed > maxIdleTime`: they leave the inactive list
and their groups (sizes recomputed, empty groups dropped, as `dropWorkers` does),
`count` drops by their number, the other workers stay where they are, and the pass
never touches `active` or any worker record. -/
theorem C9_reaper_pass (s : PoolState) (hWF : WF s) (now : Int) :
    (reapPass now s).active = s.active ∧
    (reapPass now s).procs = s.procs ∧
    (reapPass now s).inactiveApps
      = s.inactiveApps.filter (fun id => !reapElig s now id) ∧
    (reapPass now s).groups
      = dropWorkers (fun id => decide (id ∈ s.inactiveApps) && reapElig s now id)
          s.groups ∧
    (reapPass now s).count = s.count - s.inactiveApps.countP (reapElig s now) := by
  have hsp := reapFold_spec now s.inactiveApps s hWF hWF.inactNodup fun id hid => hid
  rw [reapPass, hsp]
  refine ⟨rfl, rfl, ?_, rfl, ?_⟩
  · dsimp only
    refine List.filter_congr fun x hx => ?_
    simp [hx]
  · dsimp only
    congr 1
    refine List.countP_congr fun x hx => ?_
    simp [hx]

/-- Instance of C9: at `now = 1000` with `maxIdleTime = 10`, worker `6` (idle since
`0`) is reaped and worker `7` (used at `995`) stays. -/
theorem C9_reaper_pass_witness :
    (reapPass 1000 stateE).active = stateE.active ∧
    (reapPass 1000 stateE).procs = stateE.procs ∧
    (reapPass 1000 stateE).inactiveApps
      = stateE.inactiveApps.filter (fun id => !reapElig stateE 1000 id) ∧
    (reapPass 1000 stateE).groups
      = dropWorkers
          (fun id => decide (id ∈ stateE.inactiveApps) && reapElig stateE 1000 id)
          stateE.groups ∧
    (reapPass 1000 stateE).count
      = stateE.count - stateE.inactiveApps.countP (reapElig stateE 1000) :=
  C9_reaper_pass stateE stateE_WF 1000

/-- C10: `fillInMiddle(max, prefix, middle, postfix)` throws the
`ArgumentException` exactly when `max ≤ prefix.size() + postfix.size()`; otherwise
it returns `prefix` followed by the first `max - prefix.size() - postfix.size()`
characters of `middle` (all of `middle` when it is shorter) followed by `postfix`,
so every returned string has length at most `max`, begins with `prefix` and ends
with `postfix`. -/
theorem C10_fillInMiddle_spec (mx : Nat) (pre mid post : List Char) :
    (mx ≤ pre.length + post.length ↔
      fillInMiddle mx pre mid post
        = .error "Impossible to build string with the given size constraint.") ∧
    (pre.length + post.length < mx →
      fillInMiddle mx pre mid post
        = .ok (pre ++ mid.take (mx - (pre.length + post.length)) ++ post)) ∧
    ∀ r, fillInMiddle mx pre mid post = .ok r →
      r.length ≤ mx ∧ (∃ t, r = pre ++ t) ∧ ∃ t, r = t ++ post := by
  have hok : pre.length + post.length < mx →
      fillInMiddle mx pre mid post
        = .ok (pre ++ mid.take (mx - (pre.length + post.length)) ++ post) := by
    intro hlt
    have hnle : ¬mx ≤ pre.length + post.length := by omega
    by_cases hmid : mid.length < mx - (pre.length + post.length)
    · simp only [fillInMiddle, if_neg hnle, if_pos hmid]
      rw [List.take_of_length_le (by omega)]
    · simp only [fillInMiddle, if_neg hnle, if_neg hmid]
  refine ⟨⟨fun hle => by simp [fillInMiddle, hle], fun herr => ?_⟩, hok, ?_⟩
  · by_contra hnle
    rw [hok (by omega)] at herr
    exact Except.noConfusion herr
  · intro r hr
    by_cases hle : mx ≤ pre.length + post.length
    · rw [show fillInMiddle mx pre mid post = .error
          "Impossible to build string with the given size constraint." from by
        simp [fillInMiddle, hle]] at hr
      exact Except.noConfusion hr
    · have hlt : pre.length + post.length < mx := by omega
      rw [hok hlt, Except.ok.injEq] at hr
      subst hr
      refine ⟨?_, ⟨mid.take (mx - (pre.length + post.length)) ++ post,
        by rw [List.append_assoc]⟩,
        ⟨pre ++ mid.take (mx - (pre.length + post.length)), rfl⟩⟩
      simp only [List.length_append, List.length_take]
      have hmin := Nat.min_le_left (mx - (pre.length + post.length)) mid.length
      omega

/-- Instance of C10: a middle truncated to fit `max = 4`. -/
theorem C10_fillInMiddle_witness :
    fillInMiddle 4 ['a'] ['x', 'y', 'z'] ['b']
      = .ok (['a'] ++ (['x', 'y', 'z'].take
          (4 - (['a'].length + ['b'].length))) ++ ['b']) :=
  (C10_fillInMiddle_spec 4 ['a'] ['x', 'y', 'z'] ['b']).2.1 (by decide)

end Passenger
